import Mathlib

/-!
# transcription-pipeline: retry executor, transcoder, staging and orchestration

A shallow embedding of `retry.js`, `config.js`, `utils.js`, `transcribe.js`,
`storage.js`, `mongo.js`, `sftp.js` and `pipeline.js`.

Conventions of the embedding

* JavaScript numbers that count attempts and files are natural numbers.
* The options `baseDelayMs` and `factor` of `withRetry` are natural numbers.  The
  source computes `baseDelayMs * factor ** (attempt - 1)` in IEEE doubles and hands
  the result to `setTimeout`, and Node arms a timer of 1 ms for a delay that is not
  between 1 and `TIMEOUT_MAX = 2 ^ 31 - 1`.  A `wait` of the model records the
  duration of the timer that is armed, which depends only on the exact product:
  a product of at most `2 ^ 31 - 1` is computed without rounding (every intermediate
  value is an integer below `2 ^ 53`), and a product above `2 ^ 31 - 1` is computed
  as a double above `2 ^ 31 - 1`, as `Infinity`, or (for `0 * Infinity`) as `NaN`,
  all of which arm the timer with 1 ms, as does the product 0.  The double that is
  requested (and logged) is not part of the model, and neither are options that
  are not natural numbers.
* An `async` function is a state-passing function: it maps the state before the
  call to its outcome (`Except JsError α`, `error` standing for a thrown value
  or rejected promise) and the state after it.  State changes made before a
  throw persist, as in JavaScript.
* `logger` calls are not part of the model (the logger is assumed not to throw).
* The local disk is a map from absolute paths to file contents.  Directories are
  implicit, so `ensureDir` changes nothing; an operation of `fs` throws only for a
  reason the map shows (copying or renaming a file that does not exist).
* The functions of Node's `path` module and `__dirname` are parameters (`Host`); the
  external services (SFTP, OpenAI, Spaces, MongoDB) are parameters (`Services`) that
  decide the outcome of every call from a state of their own.
-/

namespace Pipeline

/-! ## retry.js -/

/-- A thrown JavaScript value: `undefined`, or an error object with a message. -/
inductive JsError where
  | undefined
  | error (msg : String)
deriving DecidableEq, Repr

/-- The options object of `withRetry`, with the defaults of its destructuring. -/
structure RetryOptions where
  attempts : Nat := 3
  baseDelayMs : Nat := 500
  factor : Nat := 2
  taskName : String := "operation"
deriving DecidableEq, Repr

/-- What `withRetry` does that an observer can see: it invokes the action with an
attempt number (and gets an outcome), or it waits: `ms` is the duration in
milliseconds of the timer that was armed. -/
inductive RetryEvent (α : Type) where
  | invoke (attempt : Nat) (outcome : Except JsError α)
  | wait (ms : Nat)

/-- The longest duration of a Node timer, `TIMEOUT_MAX = 2 ** 31 - 1` milliseconds. -/
def TIMEOUT_MAX : Nat := 2 ^ 31 - 1

/-- The duration in milliseconds of the timer that Node's `setTimeout(callback, after)`
arms: `if (!(after >= 1 && after <= TIMEOUT_MAX)) after = 1`. -/
def setTimeout (after : Nat) : Nat :=
  if 1 ≤ after ∧ after ≤ TIMEOUT_MAX then after else 1

/-- The duration of `wait(ms)`: the promise resolves when the timer of
`setTimeout(resolve, ms)` fires. -/
def wait (ms : Nat) : Nat :=
  setTimeout ms

/-- The outcome of one `withRetry` call: returned value or thrown error, the state
the action left, and the invocations and waits in the order they happened. -/
structure RetryRun (σ α : Type) where
  result : Except JsError α
  state : σ
  events : List (RetryEvent α)

/-- The `while (attempt < attempts)` loop of `withRetry`.  The first argument only
bounds the recursion: `withRetry` starts it at `attempts`, and every iteration that
continues has increased `attempt` by one, so it reaches zero only when
`attempt < attempts` is false, where the loop is left for `throw lastError`.
`await wait(delay)` is recorded as a `wait` event with the duration of its timer. -/
def retryLoop {σ α : Type} (action : Nat → σ → Except JsError α × σ) (opts : RetryOptions) :
    Nat → Nat → JsError → σ → RetryRun σ α
  | 0, _, lastError, s => ⟨.error lastError, s, []⟩
  | fuel + 1, attempt, lastError, s =>
    if attempt < opts.attempts then
      match action (attempt + 1) s with
      | (.ok v, s') => ⟨.ok v, s', [.invoke (attempt + 1) (.ok v)]⟩
      | (.error err, s') =>
        -- lastError = err; attempt += 1
        if attempt + 1 ≥ opts.attempts then
          ⟨.error err, s', [.invoke (attempt + 1) (.error err)]⟩
        else
          let delay := opts.baseDelayMs * opts.factor ^ (attempt + 1 - 1)
          let rest := retryLoop action opts fuel (attempt + 1) err s'
          ⟨rest.result, rest.state,
            .invoke (attempt + 1) (.error err) :: .wait (wait delay) :: rest.events⟩
    else ⟨.error lastError, s, []⟩

/-- `withRetry(action, options)`: `attempt = 0`, `lastError` undefined, then the loop. -/
def withRetry {σ α : Type} (action : Nat → σ → Except JsError α × σ) (opts : RetryOptions)
    (s : σ) : RetryRun σ α :=
  retryLoop action opts opts.attempts 0 .undefined s

/-- The invocations among the events: attempt number and outcome, in order. -/
def invocations {α : Type} : List (RetryEvent α) → List (Nat × Except JsError α)
  | [] => []
  | .invoke k r :: es => (k, r) :: invocations es
  | .wait _ :: es => invocations es

/-- The durations of the waits among the events, in order. -/
def delays {α : Type} : List (RetryEvent α) → List Nat
  | [] => []
  | .invoke _ _ :: es => delays es
  | .wait ms :: es => ms :: delays es

/-- An action that fails on every invocation (state: number of invocations so far). -/
def alwaysFails (attempt : Nat) (n : Nat) : Except JsError Nat × Nat :=
  (.error (.error (if attempt % 2 = 0 then "even failure" else "odd failure")), n + 1)

/-- An action that fails until its `k`-th invocation, which succeeds with the attempt
number it was given (state: number of invocations so far). -/
def failsUntil (k : Nat) (attempt : Nat) (n : Nat) : Except JsError Nat × Nat :=
  if n + 1 < k then (.error (.error "transient"), n + 1) else (.ok attempt, n + 1)

/-! ## JavaScript strings

Strings are lists of characters.  The regular expressions of the source use only
character classes, so matching them is a scan over the characters. -/

/-- The class `\s` of a JavaScript regular expression, which is also what `trim`
strips: the WhiteSpace and LineTerminator code points. -/
def isJsWhitespace (c : Char) : Bool :=
  c.val = 0x09 || c.val = 0x0a || c.val = 0x0b || c.val = 0x0c || c.val = 0x0d
  || c.val = 0x20 || c.val = 0xa0 || c.val = 0x1680
  || (0x2000 ≤ c.val && c.val ≤ 0x200a)
  || c.val = 0x2028 || c.val = 0x2029 || c.val = 0x202f || c.val = 0x205f
  || c.val = 0x3000 || c.val = 0xfeff

/-- `String.prototype.trim` on a list of characters. -/
def jsTrim (l : List Char) : List Char :=
  ((l.dropWhile isJsWhitespace).reverse.dropWhile isJsWhitespace).reverse

/-- `text.replace(/\s+/g, " ")`: every maximal run of whitespace becomes one space.
The flag says that the previous character was whitespace (of a run already replaced). -/
def collapseWhitespaceFrom : Bool → List Char → List Char
  | _, [] => []
  | inRun, c :: cs =>
    if isJsWhitespace c then
      if inRun then collapseWhitespaceFrom true cs else ' ' :: collapseWhitespaceFrom true cs
    else c :: collapseWhitespaceFrom false cs

/-- `text.replace(/\s+/g, " ")`. -/
def collapseWhitespace (l : List Char) : List Char := collapseWhitespaceFrom false l

/-- The class `[.!?]`. -/
def isSentenceEnd (c : Char) : Bool := c = '.' || c = '!' || c = '?'

/-- The class `[^.!?\n]`. -/
def isSentenceChar (c : Char) : Bool := !(c = '.' || c = '!' || c = '?' || c = '\n')

/-- Where the scan for `/[^.!?\n]+[.!?]*/g` stands: outside a match, inside the
`[^.!?\n]+` part of a match, or inside its `[.!?]*` part.  A match in progress carries
its characters, last one first. -/
inductive ScanState where
  | outside
  | body (rev : List Char)
  | ending (rev : List Char)

/-- All matches of `/[^.!?\n]+[.!?]*/g`, left to right.  Both parts are greedy and the
two classes are disjoint, so a match starts at the first `[^.!?\n]` character not yet
consumed, takes all such characters that follow and then all `[.!?]` that follow. -/
def scanSentences : ScanState → List Char → List (List Char)
  | .outside, [] => []
  | .body rev, [] => [rev.reverse]
  | .ending rev, [] => [rev.reverse]
  | .outside, c :: cs =>
    if isSentenceChar c then scanSentences (.body [c]) cs else scanSentences .outside cs
  | .body rev, c :: cs =>
    if isSentenceChar c then scanSentences (.body (c :: rev)) cs
    else if isSentenceEnd c then scanSentences (.ending (c :: rev)) cs
    else rev.reverse :: scanSentences .outside cs
  | .ending rev, c :: cs =>
    if isSentenceEnd c then scanSentences (.ending (c :: rev)) cs
    else if isSentenceChar c then rev.reverse :: scanSentences (.body [c]) cs
    else rev.reverse :: scanSentences .outside cs

/-- `s.match(/[^.!?\n]+[.!?]*/g)`, with `[]` for `null` (a global match never returns
an empty array). -/
def sentenceMatches (l : List Char) : List (List Char) := scanSentences .outside l

/-! ## transcribe.js: the two-speaker fallback -/

/-- `parts` of `fallbackTwoSpeakers`: the matches in the whitespace-collapsed text,
`|| [text]` when there is none. -/
def fallbackParts (text : List Char) : List (List Char) :=
  match sentenceMatches (collapseWhitespace text) with
  | [] => [text]
  | m :: ms => m :: ms

/-- The label of the segment at `index`. -/
def speakerLabel (index : Nat) : List Char :=
  if index % 2 = 0 then "Speaker 1".data else "Speaker 2".data

/-- The `.map((segment, index) => ...)` of `fallbackTwoSpeakers`, for the segments from
`index` on. -/
def speakerLines : Nat → List (List Char) → List (List Char)
  | _, [] => []
  | index, segment :: rest =>
    (speakerLabel index ++ ": ".data ++ jsTrim segment) :: speakerLines (index + 1) rest

/-- `fallbackTwoSpeakers(text)`. -/
def fallbackTwoSpeakers (text : String) : String :=
  String.mk (List.intercalate ['\n'] (speakerLines 0 (fallbackParts text.data)))

/-- A line terminator, after which `^` matches under the `m` flag. -/
def isLineTerminator (c : Char) : Bool :=
  c.val = 0x0a || c.val = 0x0d || c.val = 0x2028 || c.val = 0x2029

/-- Whether `Speaker 1:` or `Speaker 2:` is a prefix, the pattern `Speaker (1|2):`. -/
def startsWithSpeaker (l : List Char) : Bool :=
  "Speaker 1:".data.isPrefixOf l || "Speaker 2:".data.isPrefixOf l

/-- The scan for `/^Speaker (1|2):/m`; the flag says that the position is the start
of the input or follows a line terminator. -/
def hasSpeakerLineFrom : Bool → List Char → Bool
  | _, [] => false
  | lineStart, c :: cs =>
    (lineStart && startsWithSpeaker (c :: cs)) || hasSpeakerLineFrom (isLineTerminator c) cs

/-- `/^Speaker (1|2):/m.test(s)`. -/
def hasSpeakerLine (s : String) : Bool := hasSpeakerLineFrom true s.data

/-- The choice of the final transcript in `transcribeFile`:
`if (!/^Speaker (1|2):/m.test(f)) f = f || raw || fallbackTwoSpeakers(raw)`;
a string is truthy when it is not empty. -/
def selectFinalTranscript (formatted raw : String) : String :=
  if !hasSpeakerLine formatted then
    if formatted ≠ "" then formatted
    else if raw ≠ "" then raw
    else fallbackTwoSpeakers raw
  else formatted

/-- `s.split("/")`. -/
def splitSlash (s : String) : List String := (s.data.splitOn '/').map String.mk

/-- `s.startsWith("..")`. -/
def startsWithDotDot (s : String) : Bool := "..".data.isPrefixOf s.data

/-- `s.replace(pattern, replacement)` with a string pattern: the first occurrence is
replaced (an empty pattern occurs at the start). -/
def replaceFirstFrom (pattern replacement : List Char) : List Char → List Char
  | [] => if pattern = [] then replacement else []
  | c :: cs =>
    if pattern.isPrefixOf (c :: cs) then replacement ++ (c :: cs).drop pattern.length
    else c :: replaceFirstFrom pattern replacement cs

/-- `s.replace(pattern, replacement)` with a string pattern. -/
def replaceFirst (s pattern replacement : String) : String :=
  String.mk (replaceFirstFrom pattern.data replacement.data s.data)

/-- `/\.(wav|mp3|m4a)$/i.test(name)`. -/
def hasAudioExtension (name : String) : Bool :=
  ".wav".data.isSuffixOf (name.data.map Char.toLower)
  || ".mp3".data.isSuffixOf (name.data.map Char.toLower)
  || ".m4a".data.isSuffixOf (name.data.map Char.toLower)

/-! ## config.js -/

/-- The value of a string of decimal digits. -/
def decimalValue (digits : List Char) : Nat :=
  digits.foldl (fun n c => 10 * n + (c.toNat - '0'.toNat)) 0

/-- `Number.parseInt(s, 10)`: leading whitespace is skipped, a sign is read, then the
longest run of decimal digits; `none` is `NaN` (no digit). -/
def parseInt10 (s : String) : Option Int :=
  match s.data.dropWhile isJsWhitespace with
  | '-' :: rest =>
    if rest.takeWhile Char.isDigit = [] then none
    else some (- (decimalValue (rest.takeWhile Char.isDigit) : Int))
  | '+' :: rest =>
    if rest.takeWhile Char.isDigit = [] then none
    else some (decimalValue (rest.takeWhile Char.isDigit) : Int)
  | rest =>
    if rest.takeWhile Char.isDigit = [] then none
    else some (decimalValue (rest.takeWhile Char.isDigit) : Int)

/-- `resolveLimit(value)` for an optional environment string; `none` is `null`. -/
def resolveLimit (value : Option String) : Option Nat :=
  match value with
  | none => none
  | some v =>
    if v = "" then none
    else
      match parseInt10 v with
      | none => none
      | some parsed => if parsed ≤ 0 then none else some parsed.toNat

/-- The `sftp` section of the exported configuration. -/
structure SftpConfig where
  host : String
  port : Nat
  user : String
  pass : String
  remotePath : String
  maxFiles : Option Nat
deriving DecidableEq, Repr

/-- The `spaces` section of the exported configuration (`pfx` is its `prefix`). -/
structure SpacesConfig where
  key : String
  secret : String
  region : String
  bucket : String
  endpoint : Option String
  pfx : String
deriving DecidableEq, Repr

/-- The `mongo` section of the exported configuration. -/
structure MongoConfig where
  uri : String
  db : String
  collection : String
deriving DecidableEq, Repr

/-- The configuration object that `config.js` exports (`limits.pipelineMaxFiles` is
`pipelineMaxFiles`). -/
structure Config where
  sftp : SftpConfig
  spaces : SpacesConfig
  mongo : MongoConfig
  pipelineMaxFiles : Option Nat
deriving DecidableEq, Repr

/-! ## The runtime: paths, files, external services -/

/-- The functions of Node's `path` module that the source calls, and `__dirname`. -/
structure Host where
  /-- `path.sep` -/
  sep : Char
  /-- `path.join(a, b)` -/
  join : String → String → String
  /-- `path.resolve(p)` -/
  resolve : String → String
  /-- `path.relative(from, to)` -/
  relative : String → String → String
  /-- `path.basename(p)` -/
  basename : String → String
  /-- `path.basename(p, ext)` -/
  basenameWithout : String → String → String
  /-- `path.extname(p)` -/
  extname : String → String
  /-- `path.posix.join(a, b)` -/
  posixJoin : String → String → String
  /-- `path.posix.relative(from, to)` -/
  posixRelative : String → String → String
  /-- `__dirname` of the modules -/
  moduleDir : String

/-- `INCOMING_DIR = path.join(__dirname, "incoming")`. -/
def INCOMING_DIR (H : Host) : String := H.join H.moduleDir "incoming"

/-- `PROCESSED_DIR = path.join(__dirname, "processed")`. -/
def PROCESSED_DIR (H : Host) : String := H.join H.moduleDir "processed"

/-- `path.join(base, ...parts)`. -/
def joinAll (H : Host) (base : String) (parts : List String) : String :=
  parts.foldl H.join base

/-- The `meta` of a transcription result. -/
structure TranscriptionMeta where
  status : String
  model : Option String := none
  formattedWith : Option String := none
deriving DecidableEq, Repr

/-- The object that `transcribeFile` returns (`metadata` is its `meta`). -/
structure Transcription where
  wav : String
  txt : String
  text : String
  metadata : TranscriptionMeta
deriving DecidableEq, Repr

/-- The `PutObjectCommand` that `putObject` sends; `body` is the path the stream reads. -/
structure PutObjectCommand where
  bucket : String
  key : String
  body : String
  acl : String
  contentType : String
  metadataType : String
  sourceFile : String
deriving DecidableEq, Repr

/-- The `keys` of an upload result. -/
structure StorageKeys where
  audio : String
  text : String
deriving DecidableEq, Repr

/-- The object that `uploadFiles` returns. -/
structure UploadResult where
  audioUrl : String
  textUrl : String
  keys : StorageKeys
deriving DecidableEq, Repr

/-- The document that `handleFile` passes to `insertRecord`. -/
structure PipelineRecord where
  source : String
  audioUrl : String
  textUrl : String
  transcript : String
  metadata : TranscriptionMeta
  storageKeys : StorageKeys
deriving DecidableEq, Repr

/-- What `client.fastGet(remote, local)` did: it wrote the whole file, or it failed,
possibly leaving a part of the file at the local path. -/
inductive FastGetOutcome where
  | done (content : String)
  | failed (err : JsError) (leftover : Option String)
deriving DecidableEq, Repr

mutual
/-- A remote directory: what `client.list` returns for it. -/
inductive RemoteDir where
  | mk (entries : RemoteEntries)
/-- The entries of a listing, each with its `name`, its `type` (`d`, `-`, `l`) and,
for a directory, its own content. -/
inductive RemoteEntries where
  | nil
  | cons (name : String) (type : String) (sub : RemoteDir) (rest : RemoteEntries)
end

/-- The external services, as functions of their own state `X`: each call returns an
outcome and the next state.  `remote` is the tree under the configured remote path;
`sftpList` only decides whether listing a directory fails. -/
structure Services (X : Type) where
  remote : RemoteDir
  sftpConnect : X → Except JsError Unit × X
  sftpList : String → X → Except JsError Unit × X
  sftpFastGet : String → String → X → FastGetOutcome × X
  sftpEnd : X → Except JsError Unit × X
  /-- `openai.audio.transcriptions.create`; the result is `asr?.text` -/
  transcription : String → Option String → X → Except JsError (Option String) × X
  /-- `openai.chat.completions.create`; the result is
  `response?.choices?.[0]?.message?.content` -/
  chatCompletion : String → X → Except JsError (Option String) × X
  s3Send : PutObjectCommand → X → Except JsError Unit × X
  mongoConnect : X → Except JsError Unit × X
  insertOne : PipelineRecord → X → Except JsError Unit × X

/-- The calls that leave the process, and the calls of `cleanup`. -/
inductive Event where
  | sftpConnect
  | sftpList (dir : String)
  | sftpFastGet (remote : String) (localFile : String)
  | sftpEnd
  | transcription (file : String)
  | chatCompletion (raw : String)
  | s3Send (command : PutObjectCommand)
  | mongoConnect
  | insertOne (record : PipelineRecord)
  | cleanup (file : String)
deriving DecidableEq, Repr

/-- The state a run works on: the files on the local disk by absolute path (directories
are implicit: `ensureDir` changes no file), the state of the external services, the
documents in the collection, `cachedClient` of `mongo.js`, and the calls made so far. -/
structure World (X : Type) where
  fs : String → Option String
  ext : X
  records : List PipelineRecord
  mongoCached : Bool
  trace : List Event

namespace World

/-- `fs.writeFileSync(p, content)` and the write of `fs.copyFileSync`. -/
def writeFile {X : Type} (w : World X) (p content : String) : World X :=
  { w with fs := fun q => if q = p then some content else w.fs q }

/-- `fs.unlinkSync(p)` of an existing file. -/
def unlink {X : Type} (w : World X) (p : String) : World X :=
  { w with fs := fun q => if q = p then none else w.fs q }

/-- Records a call. -/
def log {X : Type} (w : World X) (e : Event) : World X :=
  { w with trace := w.trace ++ [e] }

end World

/-! ## Calls of the external services -/

section Calls
variable {X : Type}

/-- `client.connect(...)`. -/
def callConnect (S : Services X) (w : World X) : Except JsError Unit × World X :=
  ((S.sftpConnect w.ext).1, { w.log .sftpConnect with ext := (S.sftpConnect w.ext).2 })

/-- `client.list(remoteDir)`, as far as success and failure go. -/
def callList (S : Services X) (remoteDir : String) (w : World X) : Except JsError Unit × World X :=
  ((S.sftpList remoteDir w.ext).1,
    { w.log (.sftpList remoteDir) with ext := (S.sftpList remoteDir w.ext).2 })

/-- `client.fastGet(remoteFile, localFile)`: the local file holds what was received. -/
def callFastGet (S : Services X) (remoteFile localFile : String) (w : World X) :
    Except JsError Unit × World X :=
  match S.sftpFastGet remoteFile localFile w.ext with
  | (.done content, x) =>
    (.ok (), { (w.log (.sftpFastGet remoteFile localFile)).writeFile localFile content
                with ext := x })
  | (.failed err (some content), x) =>
    (.error err, { (w.log (.sftpFastGet remoteFile localFile)).writeFile localFile content
                    with ext := x })
  | (.failed err none, x) =>
    (.error err, { w.log (.sftpFastGet remoteFile localFile) with ext := x })

/-- `client.end()`. -/
def callEnd (S : Services X) (w : World X) : Except JsError Unit × World X :=
  ((S.sftpEnd w.ext).1, { w.log .sftpEnd with ext := (S.sftpEnd w.ext).2 })

/-- `openai.audio.transcriptions.create({ file: fs.createReadStream(filePath), ... })`. -/
def callTranscription (S : Services X) (filePath : String) (w : World X) :
    Except JsError (Option String) × World X :=
  ((S.transcription filePath (w.fs filePath) w.ext).1,
    { w.log (.transcription filePath) with
      ext := (S.transcription filePath (w.fs filePath) w.ext).2 })

/-- `openai.chat.completions.create(...)` for a raw transcript. -/
def callChatCompletion (S : Services X) (raw : String) (w : World X) :
    Except JsError (Option String) × World X :=
  ((S.chatCompletion raw w.ext).1,
    { w.log (.chatCompletion raw) with ext := (S.chatCompletion raw w.ext).2 })

/-- `client.send(new PutObjectCommand(...))`. -/
def callSend (S : Services X) (command : PutObjectCommand) (w : World X) :
    Except JsError Unit × World X :=
  ((S.s3Send command w.ext).1, { w.log (.s3Send command) with ext := (S.s3Send command w.ext).2 })

/-- `client.connect()` of the Mongo client. -/
def callMongoConnect (S : Services X) (w : World X) : Except JsError Unit × World X :=
  ((S.mongoConnect w.ext).1, { w.log .mongoConnect with ext := (S.mongoConnect w.ext).2 })

/-- `db.collection(...).insertOne(data)`: on success the document is in the collection. -/
def callInsertOne (S : Services X) (data : PipelineRecord) (w : World X) :
    Except JsError Unit × World X :=
  match S.insertOne data w.ext with
  | (.ok _, x) =>
    (.ok (), { w.log (.insertOne data) with ext := x, records := w.records ++ [data] })
  | (.error err, x) => (.error err, { w.log (.insertOne data) with ext := x })

/-! ## utils.js -/

/-- `cleanup(filePath)`: the file is unlinked if it exists. -/
def cleanup (filePath : String) (w : World X) : World X :=
  if ((w.log (.cleanup filePath)).fs filePath).isSome then
    (w.log (.cleanup filePath)).unlink filePath
  else w.log (.cleanup filePath)

/-! ## transcribe.js -/

/-- `formatDialogue(rawTranscript)`: the trimmed content of the completion, `""` when
there is none or when the call failed after its retries. -/
def formatDialogue (S : Services X) (rawTranscript : String) (w : World X) : String × World X :=
  match withRetry (fun _ w => callChatCompletion S rawTranscript w)
      { taskName := "openai.formatDialogue", baseDelayMs := 1500 } w with
  | ⟨.ok content, w1, _⟩ => (String.mk (jsTrim (content.getD "").data), w1)
  | ⟨.error _, w1, _⟩ => ("", w1)

/-- The transcript path of an audio file:
`path.join(PROCESSED_DIR, path.basename(filePath, path.extname(filePath)) + ".txt")`. -/
def outPath (H : Host) (filePath : String) : String :=
  H.join (PROCESSED_DIR H) (H.basenameWithout filePath (H.extname filePath) ++ ".txt")

/-- `transcribeFile(filePath)`. -/
def transcribeFile (H : Host) (S : Services X) (filePath : String) (w : World X) :
    Except JsError Transcription × World X :=
  match w.fs (outPath H filePath) with
  | some content =>
    (.ok { wav := filePath, txt := outPath H filePath, text := content,
           metadata := { status := "already-processed" } }, w)
  | none =>
    match withRetry (fun _ w => callTranscription S filePath w)
        { taskName := "openai.transcription", baseDelayMs := 2000 } w with
    | ⟨.error err, w1, _⟩ => (.error err, w1)
    | ⟨.ok asr, w1, _⟩ =>
      match formatDialogue S (String.mk (jsTrim (asr.getD "").data)) w1 with
      | (formatted, w2) =>
        (.ok { wav := filePath, txt := outPath H filePath,
               text := selectFinalTranscript formatted (String.mk (jsTrim (asr.getD "").data)),
               metadata := { status := "transcribed", model := some "gpt-4o-transcribe",
                             formattedWith := some "gpt-4o-mini" } },
          w2.writeFile (outPath H filePath)
            (selectFinalTranscript formatted (String.mk (jsTrim (asr.getD "").data))))

/-- `processFile(filePath)`. -/
def processFile (H : Host) (S : Services X) (filePath : String) (w : World X) :
    Except JsError Transcription × World X :=
  transcribeFile H S filePath w

/-! ## storage.js -/

/-- `resolveEndpoint(region, explicitEndpoint)`. -/
def resolveEndpoint (region : String) (explicitEndpoint : Option String) : Except JsError String :=
  match explicitEndpoint with
  | some e =>
    if e ≠ "" then .ok e
    else if region = "" then
      .error (.error "DigitalOcean Spaces region not configured. Set SPACES_REGION.")
    else .ok ("https://" ++ region ++ ".digitaloceanspaces.com")
  | none =>
    if region = "" then
      .error (.error "DigitalOcean Spaces region not configured. Set SPACES_REGION.")
    else .ok ("https://" ++ region ++ ".digitaloceanspaces.com")

/-- `createS3Client()`, as far as it can throw: the configuration must be complete. -/
def createS3Client (cfg : Config) : Except JsError Unit :=
  if cfg.spaces.key = "" ∨ cfg.spaces.secret = "" ∨ cfg.spaces.region = ""
      ∨ cfg.spaces.bucket = "" then
    .error (.error
      "DigitalOcean Spaces configuration is incomplete. Check SPACES_KEY/SECRET/REGION/BUCKET.")
  else
    match resolveEndpoint cfg.spaces.region cfg.spaces.endpoint with
    | .ok _ => .ok ()
    | .error err => .error err

/-- `prefix.replace(/^\/+|\/+$/g, "")`: the slashes at both ends are removed. -/
def trimSlashes (s : String) : String :=
  String.mk (((s.data.dropWhile (· = '/')).reverse.dropWhile (· = '/')).reverse)

/-- `relative.split(path.sep).join("/")`. -/
def normalizeSeparators (H : Host) (relative : String) : String :=
  String.mk (relative.data.map (fun c => if c = H.sep then '/' else c))

/-- `buildObjectKey(localPath, prefix)`. -/
def buildObjectKey (H : Host) (localPath : String) (pfx : String) : String :=
  let normalized := normalizeSeparators H (H.relative (PROCESSED_DIR H) (H.resolve localPath))
  let trimmedPrefix := trimSlashes pfx
  if normalized = "" ∨ startsWithDotDot normalized = true then
    if trimmedPrefix ≠ "" then trimmedPrefix ++ "/" ++ H.basename localPath
    else H.basename localPath
  else
    if trimmedPrefix ≠ "" then trimmedPrefix ++ "/" ++ normalized else normalized

/-- `detectContentType(filePath)`. -/
def detectContentType (H : Host) (filePath : String) : String :=
  let ext := String.mk ((H.extname filePath).data.map Char.toLower)
  if ext = ".wav" then "audio/wav"
  else if ext = ".mp3" then "audio/mpeg"
  else if ext = ".m4a" then "audio/mp4"
  else if ext = ".txt" then "text/plain"
  else if ext = ".json" then "application/json"
  else "application/octet-stream"

/-- `putObject(client, bucket, filePath, key, { metadata })`. -/
def putObject (H : Host) (S : Services X) (bucket filePath key metadataType sourceFile : String)
    (w : World X) : Except JsError String × World X :=
  match withRetry (fun _ w => callSend S
        { bucket := bucket, key := key, body := filePath, acl := "private",
          contentType := detectContentType H filePath, metadataType := metadataType,
          sourceFile := sourceFile } w)
      { taskName := "spaces.putObject", baseDelayMs := 1500 } w with
  | ⟨.ok _, w1, _⟩ => (.ok key, w1)
  | ⟨.error err, w1, _⟩ => (.error err, w1)

/-- `buildFileUrl(endpoint, bucket, key)`; one slash at the end of the endpoint is
removed. -/
def buildFileUrl (endpoint bucket key : String) : String :=
  String.mk (match endpoint.data.reverse with
    | '/' :: rest => rest.reverse
    | _ => endpoint.data) ++ "/" ++ bucket ++ "/" ++ key

/-- `uploadFiles(wavPath, transcriptPath, meta)`; `sourceFile` is the `source_file` of
both metadata objects. -/
def uploadFiles (H : Host) (S : Services X) (cfg : Config)
    (wavPath transcriptPath sourceFile : String) (w : World X) :
    Except JsError UploadResult × World X :=
  if wavPath = "" ∨ transcriptPath = "" then
    (.error (.error "Both wavPath and transcriptPath are required for upload."), w)
  else
    match createS3Client cfg with
    | .error err => (.error err, w)
    | .ok _ =>
      match resolveEndpoint cfg.spaces.region cfg.spaces.endpoint with
      | .error err => (.error err, w)
      | .ok endpoint =>
        let wavKey := buildObjectKey H wavPath cfg.spaces.pfx
        let txtKey := buildObjectKey H transcriptPath cfg.spaces.pfx
        match putObject H S cfg.spaces.bucket wavPath wavKey "audio" sourceFile w with
        | (.error err, w1) => (.error err, w1)
        | (.ok _, w1) =>
          match putObject H S cfg.spaces.bucket transcriptPath txtKey "transcript" sourceFile w1 with
          | (.error err, w2) => (.error err, w2)
          | (.ok _, w2) =>
            (.ok { audioUrl := buildFileUrl endpoint cfg.spaces.bucket wavKey,
                   textUrl := buildFileUrl endpoint cfg.spaces.bucket txtKey,
                   keys := { audio := wavKey, text := txtKey } }, w2)

/-! ## mongo.js -/

/-- `getClient()`: the cached client, or a new one connected with retries and cached. -/
def getClient (S : Services X) (w : World X) : Except JsError Unit × World X :=
  if w.mongoCached then (.ok (), w)
  else
    match withRetry (fun _ w => callMongoConnect S w)
        { taskName := "mongo.connect", baseDelayMs := 1000 } w with
    | ⟨.ok _, w1, _⟩ => (.ok (), { w1 with mongoCached := true })
    | ⟨.error err, w1, _⟩ => (.error err, w1)

/-- `insertRecord(data)`. -/
def insertRecord (S : Services X) (data : PipelineRecord) (w : World X) :
    Except JsError Unit × World X :=
  match getClient S w with
  | (.error err, w1) => (.error err, w1)
  | (.ok _, w1) =>
    match withRetry (fun _ w => callInsertOne S data w)
        { taskName := "mongo.insert", baseDelayMs := 1000 } w1 with
    | ⟨.ok _, w2, _⟩ => (.ok (), w2)
    | ⟨.error err, w2, _⟩ => (.error err, w2)

end Calls

/-! ## sftp.js -/

section Sftp
variable {X : Type}

/-- What `validateConfig()` returns. -/
structure ConnectionConfig where
  host : String
  port : Nat
  username : String
  password : String
  remotePath : String
deriving DecidableEq, Repr

/-- `validateConfig()`. -/
def validateConfig (cfg : Config) : Except JsError ConnectionConfig :=
  if cfg.sftp.host = "" ∨ cfg.sftp.user = "" ∨ cfg.sftp.pass = "" ∨ cfg.sftp.remotePath = "" then
    .error (.error "Missing SFTP configuration. Check host/user/pass/remotePath in config.")
  else
    .ok { host := cfg.sftp.host, port := cfg.sftp.port, username := cfg.sftp.user,
          password := cfg.sftp.pass, remotePath := cfg.sftp.remotePath }

mutual
/-- `collectAudioFiles(client, remoteDir)`, the directory at `remoteDir` being `dir`:
it is listed with retries, then its entries are visited. -/
def collectAudioFiles (H : Host) (S : Services X) (remoteDir : String) :
    RemoteDir → World X → Except JsError (List String) × World X
  | .mk entries, w =>
    match withRetry (fun _ w => callList S remoteDir w)
        { taskName := "sftp.list", baseDelayMs := 750 } w with
    | ⟨.error err, w1, _⟩ => (.error err, w1)
    | ⟨.ok _, w1, _⟩ => collectEntries H S remoteDir entries [] w1
/-- The `for (const entry of entries)` loop of `collectAudioFiles`, with `audioFiles`
so far. -/
def collectEntries (H : Host) (S : Services X) (remoteDir : String) :
    RemoteEntries → List String → World X → Except JsError (List String) × World X
  | .nil, audioFiles, w => (.ok audioFiles, w)
  | .cons name type sub rest, audioFiles, w =>
    if name = "." ∨ name = ".." then collectEntries H S remoteDir rest audioFiles w
    else if type = "d" then
      match collectAudioFiles H S (H.posixJoin remoteDir name) sub w with
      | (.ok nested, w1) => collectEntries H S remoteDir rest (audioFiles ++ nested) w1
      | (.error err, w1) => (.error err, w1)
    else if type = "-" ∧ hasAudioExtension name = true then
      collectEntries H S remoteDir rest (audioFiles ++ [H.posixJoin remoteDir name]) w
    else collectEntries H S remoteDir rest audioFiles w
end

/-- The local path of a remote file:
`path.join(INCOMING_DIR, ...path.posix.relative(remotePath, remoteFile).split("/"))`. -/
def localFileOf (H : Host) (remotePath remoteFile : String) : String :=
  joinAll H (INCOMING_DIR H) (splitSlash (H.posixRelative remotePath remoteFile))

/-- The action that `fetchNewFiles` retries for one file: from the second attempt on
an existing local file is unlinked first; then `client.fastGet`. -/
def downloadAttempt (S : Services X) (remoteFile localFile : String) (attempt : Nat)
    (w : World X) : Except JsError Unit × World X :=
  if attempt > 1 ∧ (w.fs localFile).isSome then callFastGet S remoteFile localFile (w.unlink localFile)
  else callFastGet S remoteFile localFile w

/-- `MAX && files.length > MAX ? files.slice(0, MAX) : files`, the cap of both
`fetchNewFiles` and `runPipeline`. -/
def capFiles (limit : Option Nat) (files : List String) : List String :=
  match limit with
  | none => files
  | some m => if m ≠ 0 ∧ files.length > m then files.take m else files

/-- The `for (const remoteFile of audioFiles)` loop of `fetchNewFiles`, with
`downloadedFiles` so far. -/
def fetchLoop (H : Host) (S : Services X) (remotePath : String) :
    List String → List String → World X → List String × World X
  | [], downloadedFiles, w => (downloadedFiles, w)
  | remoteFile :: rest, downloadedFiles, w =>
    -- ensureDir(localDir) changes no file
    if (w.fs (localFileOf H remotePath remoteFile)).isSome then
      -- skipping existing local file
      fetchLoop H S remotePath rest downloadedFiles w
    else
      match withRetry (downloadAttempt S remoteFile (localFileOf H remotePath remoteFile))
          { taskName := "sftp.download", baseDelayMs := 1000 } w with
      | ⟨.ok _, w1, _⟩ =>
        fetchLoop H S remotePath rest (downloadedFiles ++ [localFileOf H remotePath remoteFile]) w1
      | ⟨.error _, w1, _⟩ =>
        -- failed to download file from SFTP
        fetchLoop H S remotePath rest downloadedFiles w1

/-- The `try` block of `fetchNewFiles`; an error caught by its `catch` leaves
`downloadedFiles` as it was, which is empty before the loop. -/
def fetchBody (H : Host) (S : Services X) (cfg : Config) (w : World X) : List String × World X :=
  match validateConfig cfg with
  | .error _ => ([], w)
  | .ok connectionConfig =>
    match withRetry (fun _ w => callConnect S w)
        { taskName := "sftp.connect", baseDelayMs := 1000 } w with
    | ⟨.error _, w1, _⟩ => ([], w1)
    | ⟨.ok _, w1, _⟩ =>
      match collectAudioFiles H S connectionConfig.remotePath S.remote w1 with
      | (.error _, w2) => ([], w2)
      | (.ok audioFiles, w2) =>
        fetchLoop H S connectionConfig.remotePath (capFiles cfg.sftp.maxFiles audioFiles) [] w2

/-- `fetchNewFiles()`: the `try` block, then `client.end()` in the `finally` (its
error is caught), then `return downloadedFiles`.  It never throws. -/
def fetchNewFiles (H : Host) (S : Services X) (cfg : Config) (w : World X) :
    List String × World X :=
  match fetchBody H S cfg w with
  | (downloadedFiles, w1) => (downloadedFiles, (callEnd S w1).2)

end Sftp

/-! ## pipeline.js -/

section Orchestrator
variable {X : Type}

/-- `resolveRelativeIncoming(filePath)`: the pair `absolute`, `relative`. -/
def resolveRelativeIncoming (H : Host) (filePath : String) : String × String :=
  (H.resolve filePath,
    if startsWithDotDot (H.relative (INCOMING_DIR H) (H.resolve filePath)) = true then
      H.basename (H.resolve filePath)
    else H.relative (INCOMING_DIR H) (H.resolve filePath))

/-- `ensureProcessedAudio(absoluteIncoming, relativeIncoming)`: the audio is copied to
the processed directory unless a file is there already; copying a file that does not
exist throws. -/
def ensureProcessedAudio (H : Host) (absoluteIncoming relativeIncoming : String) (w : World X) :
    Except JsError String × World X :=
  -- ensureDir(targetDir) changes no file
  if (w.fs (H.join (PROCESSED_DIR H) relativeIncoming)).isSome then
    (.ok (H.join (PROCESSED_DIR H) relativeIncoming), w)
  else
    match w.fs absoluteIncoming with
    | some content =>
      (.ok (H.join (PROCESSED_DIR H) relativeIncoming),
        w.writeFile (H.join (PROCESSED_DIR H) relativeIncoming) content)
    | none => (.error (.error "ENOENT: no such file or directory, copyfile"), w)

/-- The target of `ensureProcessedTranscript`:
`path.join(PROCESSED_DIR, relativeIncoming.replace(path.extname(relativeIncoming), ".txt"))`. -/
def processedTranscriptPath (H : Host) (relativeIncoming : String) : String :=
  H.join (PROCESSED_DIR H) (replaceFirst relativeIncoming (H.extname relativeIncoming) ".txt")

/-- `fs.renameSync(currentPath, targetPath)`, returning the target: the file moves;
renaming a file that does not exist throws. -/
def renameFile (currentPath targetPath : String) (w : World X) : Except JsError String × World X :=
  match w.fs currentPath with
  | some content => (.ok targetPath, (w.unlink currentPath).writeFile targetPath content)
  | none => (.error (.error "ENOENT: no such file or directory, rename"), w)

/-- `ensureProcessedTranscript(transcriptPath, relativeIncoming)`: unless the transcript
is at its target already, a file at the target is unlinked and the transcript is renamed
to it; renaming a file that does not exist throws. -/
def ensureProcessedTranscript (H : Host) (transcriptPath relativeIncoming : String)
    (w : World X) : Except JsError String × World X :=
  -- ensureDir(targetDir) changes no file
  if H.resolve transcriptPath ≠ processedTranscriptPath H relativeIncoming then
    renameFile (H.resolve transcriptPath) (processedTranscriptPath H relativeIncoming)
      (if (w.fs (processedTranscriptPath H relativeIncoming)).isSome then
        w.unlink (processedTranscriptPath H relativeIncoming) else w)
  else (.ok (processedTranscriptPath H relativeIncoming), w)

/-- The `try` block of `handleFile` for the pair `absolute`, `relative`. -/
def handleFileBody (H : Host) (S : Services X) (cfg : Config) (absolute relative : String)
    (w : World X) : Except JsError Unit × World X :=
  match processFile H S absolute w with
  | (.error err, w1) => (.error err, w1)
  | (.ok transcription, w1) =>
    match ensureProcessedAudio H absolute relative w1 with
    | (.error err, w2) => (.error err, w2)
    | (.ok processedAudioPath, w2) =>
      match ensureProcessedTranscript H transcription.txt relative w2 with
      | (.error err, w3) => (.error err, w3)
      | (.ok processedTranscriptPath, w3) =>
        match uploadFiles H S cfg processedAudioPath processedTranscriptPath relative w3 with
        | (.error err, w4) => (.error err, w4)
        | (.ok uploadResult, w4) =>
          match insertRecord S
              { source := relative, audioUrl := uploadResult.audioUrl,
                textUrl := uploadResult.textUrl, transcript := transcription.text,
                metadata := transcription.metadata, storageKeys := uploadResult.keys } w4 with
          | (.error err, w5) => (.error err, w5)
          | (.ok _, w5) => (.ok (), cleanup absolute w5)

/-- `handleFile(filePath)`: the `try` block; its `catch` logs the error and returns. -/
def handleFile (H : Host) (S : Services X) (cfg : Config) (filePath : String) (w : World X) :
    Except JsError Unit × World X :=
  match handleFileBody H S cfg (resolveRelativeIncoming H filePath).1
      (resolveRelativeIncoming H filePath).2 w with
  | (.ok _, w1) => (.ok (), w1)
  | (.error _, w1) => (.ok (), w1)

/-- The `for (const file of files) await handleFile(file)` loop of `runPipeline`: an
error of `handleFile` would end it. -/
def handleFiles (H : Host) (S : Services X) (cfg : Config) :
    List String → World X → Except JsError Unit × World X
  | [], w => (.ok (), w)
  | file :: rest, w =>
    match handleFile H S cfg file w with
    | (.ok _, w1) => handleFiles H S cfg rest w1
    | (.error err, w1) => (.error err, w1)

/-- `runPipeline()`: the batch of `fetchNewFiles` (which does not throw), nothing more
when it is empty, else the capped batch is handled file by file. -/
def runPipeline (H : Host) (S : Services X) (cfg : Config) (w : World X) :
    Except JsError Unit × World X :=
  match fetchNewFiles H S cfg w with
  | (files, w1) =>
    if files.length = 0 then (.ok (), w1)
    else handleFiles H S cfg (capFiles cfg.pipelineMaxFiles files) w1

end Orchestrator

/-! ## Examples: a POSIX host, a configuration, services -/

/-- The components of a POSIX path, `.` and empty components dropped and `..` resolved
against the components before it (last component first in the accumulator). -/
def posixComponents : List String → List String → List String
  | acc, [] => acc.reverse
  | acc, part :: rest =>
    if part = "" ∨ part = "." then posixComponents acc rest
    else if part = ".." then
      match acc with
      | [] => posixComponents [] rest
      | _ :: up => posixComponents up rest
    else posixComponents (part :: acc) rest

/-- An absolute POSIX path, normalized. -/
def posixNormalize (p : String) : String :=
  "/" ++ "/".intercalate (posixComponents [] (splitSlash p))

/-- The components of `to` relative to `from`: the common start is dropped, every
component left in `from` becomes `..`. -/
def posixRelativeParts : List String → List String → List String
  | a :: as, b :: bs => if a = b then posixRelativeParts as bs else (a :: as).map (fun _ => "..") ++ b :: bs
  | as, bs => as.map (fun _ => "..") ++ bs

/-- The extension of a file name: from its last dot on, none for a leading dot. -/
def posixExtOf (name : List Char) : List Char :=
  match (name.reverse.takeWhile (· ≠ '.')), (name.reverse.dropWhile (· ≠ '.')) with
  | _, [] => []
  | _, [_] => []
  | ext, _ :: _ :: _ => '.' :: ext.reverse

/-- A host with POSIX paths for absolute paths, the modules in `/app`. -/
def posixHost : Host where
  sep := '/'
  join := fun a b => posixNormalize (a ++ "/" ++ b)
  resolve := fun p => posixNormalize p
  relative := fun a b => "/".intercalate
    (posixRelativeParts (posixComponents [] (splitSlash a)) (posixComponents [] (splitSlash b)))
  basename := fun p => ((posixComponents [] (splitSlash p)).getLast?).getD ""
  basenameWithout := fun p ext =>
    if ext ≠ "" ∧ ext.data.isSuffixOf (((posixComponents [] (splitSlash p)).getLast?).getD "").data
        ∧ ext ≠ ((posixComponents [] (splitSlash p)).getLast?).getD "" then
      String.mk ((((posixComponents [] (splitSlash p)).getLast?).getD "").data.take
        ((((posixComponents [] (splitSlash p)).getLast?).getD "").data.length - ext.data.length))
    else ((posixComponents [] (splitSlash p)).getLast?).getD ""
  extname := fun p =>
    String.mk (posixExtOf (((posixComponents [] (splitSlash p)).getLast?).getD "").data)
  posixJoin := fun a b => posixNormalize (a ++ "/" ++ b)
  posixRelative := fun a b => "/".intercalate
    (posixRelativeParts (posixComponents [] (splitSlash a)) (posixComponents [] (splitSlash b)))
  moduleDir := "/app"

/-- A complete configuration without caps. -/
def exampleConfig : Config where
  sftp := { host := "sftp.example", port := 22, user := "u", pass := "p",
            remotePath := "/remote", maxFiles := none }
  spaces := { key := "k", secret := "s", region := "fra1", bucket := "calls",
              endpoint := none, pfx := "audio" }
  mongo := { uri := "mongodb://db", db := "transcripts", collection := "calls" }
  pipelineMaxFiles := none

/-- A remote directory with the regular files of the given names. -/
def remoteFiles : List String → RemoteEntries
  | [] => .nil
  | name :: rest => .cons name "-" (.mk .nil) (remoteFiles rest)

/-- Services that always succeed, except that the transcription of the files in
`failing` always fails; the remote directory has the regular files `names`. -/
def exampleServices (names failing : List String) : Services Unit where
  remote := .mk (remoteFiles names)
  sftpConnect := fun x => (.ok (), x)
  sftpList := fun _ x => (.ok (), x)
  sftpFastGet := fun remoteFile _ x => (.done ("audio of " ++ remoteFile), x)
  sftpEnd := fun x => (.ok (), x)
  transcription := fun file _ x =>
    if file ∈ failing then (.error (.error "transcription failed"), x)
    else (.ok (some "Speaker 1: hello"), x)
  chatCompletion := fun raw x => (.ok (some raw), x)
  s3Send := fun _ x => (.ok (), x)
  mongoConnect := fun x => (.ok (), x)
  insertOne := fun _ x => (.ok (), x)

/-- A disk with the given files, no document, no call made. -/
def exampleWorld (files : List (String × String)) : World Unit where
  fs := fun p => (files.find? (fun f => f.1 = p)).map Prod.snd
  ext := ()
  records := []
  mongoCached := false
  trace := []

/-- Services whose transcription always returns `asr` and whose chat completion always
returns `chat`; everything else succeeds, the remote directory is empty. -/
def scriptedServices (asr chat : Except JsError (Option String)) : Services Unit where
  remote := .mk .nil
  sftpConnect := fun x => (.ok (), x)
  sftpList := fun _ x => (.ok (), x)
  sftpFastGet := fun remoteFile _ x => (.done ("audio of " ++ remoteFile), x)
  sftpEnd := fun x => (.ok (), x)
  transcription := fun _ _ x => (asr, x)
  chatCompletion := fun _ x => (chat, x)
  s3Send := fun _ x => (.ok (), x)
  mongoConnect := fun x => (.ok (), x)
  insertOne := fun _ x => (.ok (), x)

/-- The example configuration with `SFTP_MAX_FILES` set to `value`. -/
def exampleConfigWithCap (value : Option String) : Config :=
  { exampleConfig with sftp := { exampleConfig.sftp with maxFiles := resolveLimit value } }

/-! ## Relating the state before and after a step -/

/-- From `w` to `v`, calls were only added and all of them satisfy `P`, and only files
at paths in `F` changed. -/
def Step {X : Type} (P : Event → Prop) (F : String → Prop) (w v : World X) : Prop :=
  (∃ evs, v.trace = w.trace ++ evs ∧ ∀ e ∈ evs, P e) ∧ ∀ p, ¬ F p → v.fs p = w.fs p

/-- The stages of `handleFile` all succeed for the file `absolute`, `relative` from the
state `w`: transcode, the two copies to the processed directory, archive, and the
insertion of `record`, which takes the state `w4` to `w5`. -/
def StagesSucceed {X : Type} (H : Host) (S : Services X) (cfg : Config)
    (absolute relative : String) (w w4 w5 : World X) (record : PipelineRecord) : Prop :=
  ∃ (transcription : Transcription) (w1 : World X) (audioPath : String) (w2 : World X)
    (transcriptPath : String) (w3 : World X) (uploadResult : UploadResult),
    processFile H S absolute w = (.ok transcription, w1)
    ∧ ensureProcessedAudio H absolute relative w1 = (.ok audioPath, w2)
    ∧ ensureProcessedTranscript H transcription.txt relative w2 = (.ok transcriptPath, w3)
    ∧ uploadFiles H S cfg audioPath transcriptPath relative w3 = (.ok uploadResult, w4)
    ∧ record = { source := relative, audioUrl := uploadResult.audioUrl,
                 textUrl := uploadResult.textUrl, transcript := transcription.text,
                 metadata := transcription.metadata, storageKeys := uploadResult.keys }
    ∧ insertRecord S record w4 = (.ok (), w5)

/-- An event other than a call of `cleanup`. -/
def NotCleanup (e : Event) : Prop := ∀ f, e ≠ .cleanup f

/-- The paths in the processed directory that `handleFile` writes, moves or unlinks for
the file `absolute`, `relative`. -/
def ProcessedPaths (H : Host) (absolute relative : String) (p : String) : Prop :=
  p = outPath H absolute ∨ p = H.resolve (outPath H absolute)
  ∨ p = H.join (PROCESSED_DIR H) relative ∨ p = processedTranscriptPath H relative

/-! ## What the remote listing should return -/

/-- Whether a name ends in `.wav`, `.mp3` or `.m4a`, compared without regard to case:
its last four characters, in lower case, are one of the three. -/
def endsInAudioExtension (name : String) : Bool :=
  [".wav", ".mp3", ".m4a"].any
    (fun ext => (name.data.drop (name.data.length - 4)).map Char.toLower == ext.data)

mutual
/-- The entries of a remote tree in depth-first order, each with the path of its
directory, its name and its type: an entry comes before the entries of its own
directory and those come before its next sibling; `.` and `..` are no entries of the
tree. -/
def treeEntries (H : Host) (remoteDir : String) : RemoteDir → List (String × String × String)
  | .mk entries => treeEntriesOf H remoteDir entries
/-- The entries of a remote tree that come from the given entries of a directory. -/
def treeEntriesOf (H : Host) (remoteDir : String) :
    RemoteEntries → List (String × String × String)
  | .nil => []
  | .cons name type sub rest =>
    (if name = "." ∨ name = ".." then []
     else (remoteDir, name, type) ::
       (if type = "d" then treeEntries H (H.posixJoin remoteDir name) sub else []))
    ++ treeEntriesOf H remoteDir rest
end

/-- The full paths of the regular files of a remote tree whose name ends in an audio
extension, in depth-first order. -/
def expectedAudioFiles (H : Host) (remoteDir : String) (dir : RemoteDir) : List String :=
  ((treeEntries H remoteDir dir).filter
      (fun e => decide (e.2.2 = "-") && endsInAudioExtension e.2.1)).map
    (fun e => H.posixJoin e.1 e.2.1)

/-- A remote tree: two audio files in different case, a text file, a link, the entries
`.` and `..`, and a directory `sub.wav` with an audio file and a directory `deep` with
one more. -/
def exampleTree : RemoteDir :=
  .mk (.cons "." "d" (.mk .nil)
    (.cons ".." "d" (.mk .nil)
    (.cons "a.wav" "-" (.mk .nil)
    (.cons "sub.wav" "d"
      (.mk (.cons "c.Mp3" "-" (.mk .nil)
        (.cons "deep" "d" (.mk (.cons "d.m4a" "-" (.mk .nil) .nil))
        (.cons "notes.txt" "-" (.mk .nil) .nil))))
    (.cons "link.wav" "l" (.mk .nil)
    (.cons "B.WAV" "-" (.mk .nil) .nil))))))

/-! ## Theorems -/

/-- The recursion bound of `retryLoop` does not matter once it covers the remaining
attempts: the branch for an exhausted bound is never taken from `withRetry`. -/
theorem retryLoop_fuel_irrelevant {σ α : Type} (action : Nat → σ → Except JsError α × σ)
    (opts : RetryOptions) :
    ∀ (fuel fuel' a : Nat) (lastError : JsError) (s : σ),
      opts.attempts ≤ a + fuel → opts.attempts ≤ a + fuel' →
      retryLoop action opts fuel a lastError s = retryLoop action opts fuel' a lastError s := by
  intro fuel
  induction fuel with
  | zero =>
    intro fuel' a lastError s h _
    have ha : ¬ a < opts.attempts := by omega
    cases fuel' with
    | zero => rfl
    | succ f' => rw [retryLoop, retryLoop]; simp [ha]
  | succ f ih =>
    intro fuel' a lastError s h h'
    cases fuel' with
    | zero =>
      have ha : ¬ a < opts.attempts := by omega
      rw [retryLoop, retryLoop]; simp [ha]
    | succ f' =>
      rw [retryLoop, retryLoop]
      by_cases ha : a < opts.attempts
      · simp only [ha, if_true]
        rcases action (a + 1) s with ⟨r, s'⟩
        cases r with
        | ok v => rfl
        | error err =>
          simp only []
          by_cases hlast : a + 1 ≥ opts.attempts
          · simp only [hlast, if_true]
          · simp only [hlast, if_false]
            rw [ih f' (a + 1) err s' (by omega) (by omega)]
      · simp only [ha, if_false]

/-- The loop of `withRetry`, entered with `attempt = a < attempts` and a recursion
bound that covers the remaining attempts, invokes the action at least once. -/
theorem retryLoop_invocations_pos {σ α : Type} (action : Nat → σ → Except JsError α × σ)
    (opts : RetryOptions) (fuel a : Nat) (lastError : JsError) (s : σ)
    (hfuel : opts.attempts ≤ a + fuel) (ha : a < opts.attempts) :
    1 ≤ (invocations (retryLoop action opts fuel a lastError s).events).length := by
  cases fuel with
  | zero => omega
  | succ f =>
    rw [retryLoop]
    simp only [ha, if_true]
    rcases action (a + 1) s with ⟨r, s'⟩
    cases r with
    | ok v => simp [invocations]
    | error err =>
      simp only []
      by_cases hlast : a + 1 ≥ opts.attempts
      · simp [hlast, invocations]
      · simp [hlast, invocations]

/-- The loop of `withRetry`, entered with `attempt = a < attempts`: what it invokes
and what it returns. -/
theorem retryLoop_spec {σ α : Type} (action : Nat → σ → Except JsError α × σ)
    (opts : RetryOptions) :
    ∀ (fuel a : Nat) (lastError : JsError) (s : σ), opts.attempts ≤ a + fuel →
      a < opts.attempts →
      a + (invocations (retryLoop action opts fuel a lastError s).events).length ≤ opts.attempts
      ∧ (invocations (retryLoop action opts fuel a lastError s).events).map Prod.fst
          = List.range' (a + 1) (invocations (retryLoop action opts fuel a lastError s).events).length
      ∧ (∀ i, i + 1 < (invocations (retryLoop action opts fuel a lastError s).events).length →
          ∃ e, ((invocations (retryLoop action opts fuel a lastError s).events).get? i).map Prod.snd
            = some (.error e))
      ∧ (invocations (retryLoop action opts fuel a lastError s).events).getLast?
          = some (a + (invocations (retryLoop action opts fuel a lastError s).events).length,
              (retryLoop action opts fuel a lastError s).result)
      ∧ (∀ e, (retryLoop action opts fuel a lastError s).result = .error e →
          a + (invocations (retryLoop action opts fuel a lastError s).events).length
            = opts.attempts)
      ∧ (∀ p ∈ invocations (retryLoop action opts fuel a lastError s).events,
          ∃ s0, (action p.1 s0).1 = p.2) := by
  intro fuel
  induction fuel with
  | zero => intro a lastError s h1 h2; omega
  | succ f ih =>
    intro a lastError s hfuel ha
    rw [retryLoop]
    simp only [ha, if_true]
    rcases hact : action (a + 1) s with ⟨r, s'⟩
    cases r with
    | ok v =>
      refine ⟨?_, ?_, ?_, ?_, ?_, ?_⟩
      · simp only [invocations, List.length_singleton]; omega
      · simp [invocations]
      · intro i hi; simp [invocations] at hi
      · simp [invocations]
      · intro e he; cases he
      · intro p hp
        simp only [invocations, List.mem_singleton] at hp
        subst hp; exact ⟨s, by rw [hact]⟩
    | error err =>
      simp only []
      by_cases hlast : a + 1 ≥ opts.attempts
      · simp only [hlast, if_true]
        refine ⟨?_, ?_, ?_, ?_, ?_, ?_⟩
        · simp only [invocations, List.length_singleton]; omega
        · simp [invocations]
        · intro i hi; simp [invocations] at hi
        · simp [invocations]
        · intro e _; simp only [invocations, List.length_singleton]; omega
        · intro p hp
          simp only [invocations, List.mem_singleton] at hp
          subst hp; exact ⟨s, by rw [hact]⟩
      · simp only [hlast, if_false]
        obtain ⟨h2, h3, h4, h5, h6, h7⟩ := ih (a + 1) err s' (by omega) (by omega)
        have h1 := retryLoop_invocations_pos action opts f (a + 1) err s' (by omega) (by omega)
        simp only [invocations]
        refine ⟨?_, ?_, ?_, ?_, ?_, ?_⟩
        · simp only [List.length_cons]; omega
        · simp only [List.map_cons, List.length_cons, List.range'_succ, h3]
        · intro i hi
          cases i with
          | zero => exact ⟨err, by simp⟩
          | succ j =>
            have := h4 j (by simpa using hi)
            simpa using this
        · revert h1 h5
          generalize invocations (retryLoop action opts f (a + 1) err s').events = l
          intro hl hp
          cases l with
          | nil => simp at hp
          | cons x xs =>
            rw [List.getLast?_cons_cons, hl]
            simp only [List.length_cons]
            congr 2
            omega
        · intro e he
          have := h6 e he
          simp only [List.length_cons]; omega
        · intro p hp
          rcases List.mem_cons.mp hp with hp | hp
          · subst hp; exact ⟨s, by rw [hact]⟩
          · exact h7 p hp

/-- The loop of `withRetry`: invocations and waits alternate, the wait after the
invocation with attempt number `a + i + 1` is `wait (baseDelayMs * factor ^ (a + i))`,
and the last event is an invocation. -/
theorem retryLoop_backoff {σ α : Type} (action : Nat → σ → Except JsError α × σ)
    (opts : RetryOptions) :
    ∀ (fuel a : Nat) (lastError : JsError) (s : σ), opts.attempts ≤ a + fuel →
      (retryLoop action opts fuel a lastError s).events.length
          = 2 * (invocations (retryLoop action opts fuel a lastError s).events).length - 1
      ∧ (∀ i, i < (invocations (retryLoop action opts fuel a lastError s).events).length →
          ∃ r, (retryLoop action opts fuel a lastError s).events.get? (2 * i)
            = some (.invoke (a + i + 1) r))
      ∧ (∀ i, i + 1 < (invocations (retryLoop action opts fuel a lastError s).events).length →
          (retryLoop action opts fuel a lastError s).events.get? (2 * i + 1)
            = some (.wait (wait (opts.baseDelayMs * opts.factor ^ (a + i)))))
      ∧ delays (retryLoop action opts fuel a lastError s).events
          = (List.range' a
              ((invocations (retryLoop action opts fuel a lastError s).events).length - 1)).map
              (fun j => wait (opts.baseDelayMs * opts.factor ^ j))
      ∧ (∀ i e, (retryLoop action opts fuel a lastError s).events.get? (2 * i)
            = some (.invoke (a + i + 1) (.error e)) →
          a + i + 1 < opts.attempts →
          i + 1 < (invocations (retryLoop action opts fuel a lastError s).events).length) := by
  intro fuel
  induction fuel with
  | zero => intro a lastError s _; simp [retryLoop, invocations, delays]
  | succ f ih =>
    intro a lastError s hfuel
    rw [retryLoop]
    by_cases ha : a < opts.attempts
    · simp only [ha, if_true]
      rcases hact : action (a + 1) s with ⟨r, s'⟩
      cases r with
      | ok v =>
        refine ⟨?_, ?_, ?_, ?_, ?_⟩
        · simp [invocations]
        · intro i hi
          simp only [invocations, List.length_singleton] at hi
          have : i = 0 := by omega
          subst this
          exact ⟨_, rfl⟩
        · intro i hi; simp [invocations] at hi
        · simp [invocations, delays]
        · intro i e hi _
          cases i with
          | zero => simp at hi
          | succ j =>
            have e1 : 2 * (j + 1) = 2 * j + 1 + 1 := by ring
            rw [e1] at hi
            simp at hi
      | error err =>
        simp only []
        by_cases hlast : a + 1 ≥ opts.attempts
        · simp only [hlast, if_true]
          refine ⟨?_, ?_, ?_, ?_, ?_⟩
          · simp [invocations]
          · intro i hi
            simp only [invocations, List.length_singleton] at hi
            have : i = 0 := by omega
            subst this
            exact ⟨_, rfl⟩
          · intro i hi; simp [invocations] at hi
          · simp [invocations, delays]
          · intro i e hi hlt
            omega
        · simp only [hlast, if_false]
          obtain ⟨h1, h2, h3, h4, h5⟩ := ih (a + 1) err s' (by omega)
          have hpos := retryLoop_invocations_pos action opts f (a + 1) err s' (by omega) (by omega)
          simp only [invocations, delays, List.length_cons]
          refine ⟨?_, ?_, ?_, ?_, ?_⟩
          · rw [h1]; omega
          · intro i hi
            cases i with
            | zero => exact ⟨_, rfl⟩
            | succ j =>
              obtain ⟨r, hr⟩ := h2 j (by omega)
              refine ⟨r, ?_⟩
              have e1 : 2 * (j + 1) = 2 * j + 1 + 1 := by ring
              have e2 : a + (j + 1) + 1 = a + 1 + j + 1 := by ring
              rw [e1, e2]
              simpa using hr
          · intro i hi
            cases i with
            | zero => simp
            | succ j =>
              have hj := h3 j (by omega)
              have e1 : 2 * (j + 1) + 1 = 2 * j + 1 + 1 + 1 := by ring
              have e2 : a + (j + 1) = a + 1 + j := by ring
              rw [e1, e2]
              simpa using hj
          · rw [h4]
            have : (invocations (retryLoop action opts f (a + 1) err s').events).length + 1 - 1
                = ((invocations (retryLoop action opts f (a + 1) err s').events).length - 1) + 1 := by
              omega
            rw [this, List.range'_succ]
            simp
          · intro i e hi hlt
            cases i with
            | zero => omega
            | succ j =>
              have e1 : 2 * (j + 1) = 2 * j + 1 + 1 := by ring
              have e2 : a + (j + 1) + 1 = a + 1 + j + 1 := by ring
              rw [e1, e2] at hi
              have := h5 j e (by simpa using hi) (by omega)
              omega
    · simp [ha, invocations, delays]

/-- C1 (retry ceiling).  With `attempts ≥ 1`, `withRetry` invokes the action at least
once and at most `attempts` times; the `k`-th invocation receives attempt number `k`;
every invocation but the last one failed; `withRetry` returns or throws exactly what
the last invocation returned or threw; and it throws only after exactly `attempts`
invocations.  Hence an action that fails on attempts `1 .. attempts - 1` and succeeds
on attempt `attempts` yields that success after `attempts` invocations, and an action
that fails on all attempts `1 .. attempts` yields the error of invocation `attempts`. -/
theorem withRetry_attempt_ceiling {σ α : Type} (action : Nat → σ → Except JsError α × σ)
    (opts : RetryOptions) (s : σ) (h : 1 ≤ opts.attempts) :
    1 ≤ (invocations (withRetry action opts s).events).length
    ∧ (invocations (withRetry action opts s).events).length ≤ opts.attempts
    ∧ (invocations (withRetry action opts s).events).map Prod.fst
        = List.range' 1 (invocations (withRetry action opts s).events).length
    ∧ (∀ i, i + 1 < (invocations (withRetry action opts s).events).length →
        ∃ e, ((invocations (withRetry action opts s).events).get? i).map Prod.snd
          = some (.error e))
    ∧ (invocations (withRetry action opts s).events).getLast?
        = some ((invocations (withRetry action opts s).events).length,
            (withRetry action opts s).result)
    ∧ (∀ e, (withRetry action opts s).result = .error e →
        (invocations (withRetry action opts s).events).length = opts.attempts)
    ∧ (∀ v, (∀ k s0, 1 ≤ k → k < opts.attempts → ∃ e, (action k s0).1 = .error e) →
        (∀ s0, (action opts.attempts s0).1 = .ok v) →
        (withRetry action opts s).result = .ok v
        ∧ (invocations (withRetry action opts s).events).length = opts.attempts)
    ∧ ((∀ k s0, 1 ≤ k → k ≤ opts.attempts → ∃ e, (action k s0).1 = .error e) →
        (invocations (withRetry action opts s).events).length = opts.attempts
        ∧ ∃ e, (withRetry action opts s).result = .error e
          ∧ (invocations (withRetry action opts s).events).getLast?
            = some (opts.attempts, .error e)) := by
  have hpos := retryLoop_invocations_pos action opts opts.attempts 0 .undefined s
    (by omega) (by omega)
  obtain ⟨h2, h3, h4, h5, h6, h7⟩ :=
    retryLoop_spec action opts opts.attempts 0 .undefined s (by omega) (by omega)
  simp only [Nat.zero_add] at h2 h3 h5 h6
  unfold withRetry
  generalize hrun : retryLoop action opts opts.attempts 0 JsError.undefined s = run at *
  generalize hcalls : invocations run.events = calls at *
  have hlast : (calls.length, run.result) ∈ calls := List.mem_of_getLast?_eq_some h5
  have hlen_of_fail : (∀ k s0, 1 ≤ k → k < opts.attempts → ∃ e, (action k s0).1 = .error e) →
      calls.length = opts.attempts := by
    intro hfail
    by_contra hne
    have hlt : calls.length < opts.attempts := by omega
    obtain ⟨s0, hs0⟩ := h7 _ hlast
    obtain ⟨e, he⟩ := hfail calls.length s0 hpos hlt
    simp only at hs0
    rw [he] at hs0
    have := h6 e hs0.symm
    omega
  refine ⟨hpos, h2, h3, h4, h5, h6, ?_, ?_⟩
  · intro v hfail hsucc
    have hlen := hlen_of_fail hfail
    refine ⟨?_, hlen⟩
    obtain ⟨s0, hs0⟩ := h7 _ hlast
    simp only at hs0
    rw [hlen, hsucc s0] at hs0
    exact hs0.symm
  · intro hfail
    have hlen := hlen_of_fail (fun k s0 h1 h2 => hfail k s0 h1 (by omega))
    refine ⟨hlen, ?_⟩
    obtain ⟨s0, hs0⟩ := h7 _ hlast
    obtain ⟨e, he⟩ := hfail calls.length s0 hpos (by omega)
    simp only at hs0
    rw [he] at hs0
    refine ⟨e, hs0.symm, ?_⟩
    rw [h5, hlen, ← hs0]

/-- Witness for C1: an action that fails twice and succeeds on the third invocation,
run with `attempts = 3`, is invoked three times and its success value is returned; an
action that always fails is invoked three times and the error of the third invocation
is thrown. -/
theorem withRetry_attempt_ceiling_witness :
    1 ≤ ({ attempts := 3 } : RetryOptions).attempts
    ∧ (invocations (withRetry (failsUntil 3) { attempts := 3 } 0).events).length ≤ 3
    ∧ (withRetry (failsUntil 3) { attempts := 3 } 0).result = .ok 3
    ∧ (withRetry (failsUntil 3) { attempts := 3 } 0).state = 3
    ∧ (withRetry alwaysFails { attempts := 3 } 0).result = .error (.error "odd failure")
    ∧ (withRetry alwaysFails { attempts := 3 } 0).state = 3 :=
  ⟨by decide,
   (withRetry_attempt_ceiling (failsUntil 3) { attempts := 3 } 0 (by decide)).2.1,
   rfl, rfl, rfl, rfl⟩

/-- C2 (backoff growth), amended.  For all options and actions, invocations and waits
alternate in the events of `withRetry`: event `2 i` is the invocation with attempt
number `i + 1`, and when that is not the last invocation, event `2 i + 1` is a wait whose
timer is armed with `wait (baseDelayMs * factor ^ i)`.  That duration is exactly
`baseDelayMs * factor ^ i` when the product is between 1 and `TIMEOUT_MAX = 2147483647`,
and it is 1 ms when the product is 0 or above `TIMEOUT_MAX`.  A failed invocation
`k < attempts` is never the last one; there is no event after the last invocation.
With `baseDelayMs = 500`, `factor = 2`, `attempts = 4` and an always-failing action the
waits are `[500, 1000, 2000]`. -/
theorem withRetry_backoff {σ α : Type} (action : Nat → σ → Except JsError α × σ)
    (opts : RetryOptions) (s : σ) :
    (withRetry action opts s).events.length
        = 2 * (invocations (withRetry action opts s).events).length - 1
    ∧ (∀ i, i < (invocations (withRetry action opts s).events).length →
        ∃ r, (withRetry action opts s).events.get? (2 * i) = some (.invoke (i + 1) r))
    ∧ (∀ i, i + 1 < (invocations (withRetry action opts s).events).length →
        (withRetry action opts s).events.get? (2 * i + 1)
          = some (.wait (wait (opts.baseDelayMs * opts.factor ^ i))))
    ∧ (∀ i, i + 1 < (invocations (withRetry action opts s).events).length →
        1 ≤ opts.baseDelayMs * opts.factor ^ i →
        opts.baseDelayMs * opts.factor ^ i ≤ TIMEOUT_MAX →
        (withRetry action opts s).events.get? (2 * i + 1)
          = some (.wait (opts.baseDelayMs * opts.factor ^ i)))
    ∧ (∀ i, i + 1 < (invocations (withRetry action opts s).events).length →
        opts.baseDelayMs * opts.factor ^ i = 0
          ∨ TIMEOUT_MAX < opts.baseDelayMs * opts.factor ^ i →
        (withRetry action opts s).events.get? (2 * i + 1) = some (.wait 1))
    ∧ TIMEOUT_MAX = 2147483647
    ∧ (∀ i e, (withRetry action opts s).events.get? (2 * i) = some (.invoke (i + 1) (.error e)) →
        i + 1 < opts.attempts →
        i + 1 < (invocations (withRetry action opts s).events).length)
    ∧ delays (withRetry action opts s).events
        = (List.range ((invocations (withRetry action opts s).events).length - 1)).map
            (fun i => wait (opts.baseDelayMs * opts.factor ^ i))
    ∧ delays (withRetry alwaysFails { attempts := 4, baseDelayMs := 500, factor := 2 } 0).events
        = [500, 1000, 2000] := by
  obtain ⟨h1, h2, h3, h4, h5⟩ :=
    retryLoop_backoff action opts opts.attempts 0 .undefined s (by omega)
  simp only [Nat.zero_add] at h2 h3 h5
  refine ⟨h1, h2, h3, ?_, ?_, by decide, h5, ?_, by decide⟩
  · intro i hi hlo hhi
    have e := h3 i hi
    unfold withRetry at e ⊢
    rw [e]
    simp [wait, setTimeout, hlo, hhi]
  · intro i hi hout
    have e := h3 i hi
    unfold withRetry at e ⊢
    rw [e]
    have hmax : TIMEOUT_MAX = 2147483647 := by decide
    rcases hout with h0 | hbig
    · simp [wait, setTimeout, h0]
    · have : ¬ (opts.baseDelayMs * opts.factor ^ i ≤ TIMEOUT_MAX) := by omega
      simp [wait, setTimeout, this]
  · unfold withRetry
    rw [h4, List.range_eq_range']

/-- The amended backoff statement at the default options: with `attempts = 4` and an
always-failing action the second wait (product 1000, within the timer's range) is a
wait of 1000 ms. -/
theorem withRetry_backoff_witness :
    1 + 1 < (invocations (withRetry alwaysFails { attempts := 4 } 0).events).length
    ∧ 1 ≤ 500 * 2 ^ 1 ∧ 500 * 2 ^ 1 ≤ TIMEOUT_MAX
    ∧ delays (withRetry alwaysFails { attempts := 4 } 0).events = [500, 1000, 2000]
    ∧ (withRetry alwaysFails { attempts := 4 } 0).events.get? (2 * 1 + 1)
        = some (.wait (500 * 2 ^ 1)) :=
  ⟨by decide, by decide, by decide, by decide,
   (withRetry_backoff alwaysFails { attempts := 4 } 0).2.2.2.1 1
     (by decide) (by decide) (by decide)⟩

/-- C2 as stated fails: with the default `baseDelayMs = 500` and `factor = 2`,
`attempts = 25` and an always-failing action, invocation 24 fails and `24 < 25`, and
the product `500 * 2 ^ 23 = 4194304000` is above `TIMEOUT_MAX`; the wait before
invocation 25 is a timer of 1 ms, not of 4194304000 ms. -/
theorem withRetry_backoff_counterexample :
    (invocations (withRetry alwaysFails { attempts := 25 } 0).events).length = 25
    ∧ (withRetry alwaysFails { attempts := 25 } 0).result = .error (.error "odd failure")
    ∧ (delays (withRetry alwaysFails { attempts := 25 } 0).events).get? 23 = some 1
    ∧ (delays (withRetry alwaysFails { attempts := 25 } 0).events).get? 23
        ≠ some (500 * 2 ^ (24 - 1))
    ∧ (delays (withRetry alwaysFails { attempts := 25 } 0).events).get? 22
        = some (500 * 2 ^ (23 - 1)) := by
  refine ⟨by decide, rfl, by decide, by decide, by decide⟩

/-! ### The scans are the regular expressions -/

/-- Inside the `[^.!?\n]+` part, characters of the class are consumed. -/
theorem scanSentences_body_append (body : List Char) (hbody : ∀ c ∈ body, isSentenceChar c = true) :
    ∀ (rev l : List Char),
      scanSentences (.body rev) (body ++ l) = scanSentences (.body (body.reverse ++ rev)) l := by
  induction body with
  | nil => intro rev l; rfl
  | cons c cs ih =>
    intro rev l
    have hc := hbody c (List.mem_cons_self _ _)
    rw [List.cons_append, scanSentences]
    simp only [hc, if_true]
    rw [ih (fun d hd => hbody d (List.mem_cons_of_mem _ hd))]
    simp

/-- Inside the `[.!?]*` part, characters of the class are consumed. -/
theorem scanSentences_ending_append (tail : List Char)
    (htail : ∀ c ∈ tail, isSentenceEnd c = true) :
    ∀ (rev l : List Char),
      scanSentences (.ending rev) (tail ++ l) = scanSentences (.ending (tail.reverse ++ rev)) l := by
  induction tail with
  | nil => intro rev l; rfl
  | cons c cs ih =>
    intro rev l
    have hc := htail c (List.mem_cons_self _ _)
    rw [List.cons_append, scanSentences]
    simp only [hc, if_true]
    rw [ih (fun d hd => htail d (List.mem_cons_of_mem _ hd))]
    simp

/-- The scan computes the global match of `/[^.!?\n]+[.!?]*/g`: a character outside
`[^.!?\n]` at the current position is skipped; otherwise the match is the longest run
`body` of `[^.!?\n]` followed by the longest run `tail` of `[.!?]`, and the scan goes on
behind it. -/
theorem sentenceMatches_greedy :
    sentenceMatches [] = []
    ∧ (∀ c l, isSentenceChar c = false → sentenceMatches (c :: l) = sentenceMatches l)
    ∧ (∀ body tail l, body ≠ [] → (∀ c ∈ body, isSentenceChar c = true) →
        (∀ c ∈ tail, isSentenceEnd c = true) →
        (∀ c, l.head? = some c → isSentenceEnd c = false ∧ (tail = [] → isSentenceChar c = false)) →
        sentenceMatches (body ++ tail ++ l) = (body ++ tail) :: sentenceMatches l) := by
  have hdisj : ∀ c, isSentenceEnd c = true → isSentenceChar c = false := by
    intro c hc
    simp only [isSentenceEnd, Bool.or_eq_true, decide_eq_true_eq] at hc
    rcases hc with (hc | hc) | hc <;> subst hc <;> decide
  refine ⟨rfl, ?_, ?_⟩
  · intro c l hc
    unfold sentenceMatches
    rw [scanSentences]
    simp [hc]
  · intro body tail l hne hbody htail hnext
    unfold sentenceMatches
    cases body with
    | nil => exact absurd rfl hne
    | cons b bs =>
      have hb := hbody b (List.mem_cons_self _ _)
      rw [List.cons_append, List.cons_append, scanSentences]
      simp only [hb, if_true]
      rw [List.append_assoc,
        scanSentences_body_append bs (fun d hd => hbody d (List.mem_cons_of_mem _ hd))]
      cases tail with
      | nil =>
        simp only [List.nil_append, List.append_nil]
        cases l with
        | nil => simp [scanSentences]
        | cons c cs =>
          obtain ⟨h1, h2⟩ := hnext c rfl
          have h2' := h2 rfl
          simp [scanSentences, h1, h2']
      | cons t ts =>
        have ht := htail t (List.mem_cons_self _ _)
        rw [List.cons_append, scanSentences]
        simp only [hdisj t ht, ht, Bool.false_eq_true, if_false, if_true]
        rw [scanSentences_ending_append ts (fun d hd => htail d (List.mem_cons_of_mem _ hd))]
        cases l with
        | nil => simp [scanSentences]
        | cons c cs =>
          obtain ⟨h1, _⟩ := hnext c rfl
          by_cases hc : isSentenceChar c = true
          · simp [scanSentences, h1, hc]
          · simp [scanSentences, h1, hc]

/-- The scan computes `replace(/\s+/g, " ")`: a character that is not whitespace is
kept, a longest run of whitespace becomes one space. -/
theorem collapseWhitespace_runs :
    collapseWhitespace [] = []
    ∧ (∀ c l, isJsWhitespace c = false → collapseWhitespace (c :: l) = c :: collapseWhitespace l)
    ∧ (∀ run l, run ≠ [] → (∀ c ∈ run, isJsWhitespace c = true) →
        (∀ c, l.head? = some c → isJsWhitespace c = false) →
        collapseWhitespace (run ++ l) = ' ' :: collapseWhitespace l) := by
  have hskip : ∀ (run l : List Char), (∀ c ∈ run, isJsWhitespace c = true) →
      (∀ c, l.head? = some c → isJsWhitespace c = false) →
      collapseWhitespaceFrom true (run ++ l) = collapseWhitespaceFrom false l := by
    intro run
    induction run with
    | nil =>
      intro l _ hl
      cases l with
      | nil => rfl
      | cons c cs =>
        have hc := hl c rfl
        simp [collapseWhitespaceFrom, hc]
    | cons r rs ih =>
      intro l hrun hl
      have hr := hrun r (List.mem_cons_self _ _)
      rw [List.cons_append, collapseWhitespaceFrom]
      simp only [hr, if_true]
      exact ih l (fun d hd => hrun d (List.mem_cons_of_mem _ hd)) hl
  refine ⟨rfl, ?_, ?_⟩
  · intro c l hc
    simp [collapseWhitespace, collapseWhitespaceFrom, hc]
  · intro run l hne hrun hl
    cases run with
    | nil => exact absurd rfl hne
    | cons r rs =>
      have hr := hrun r (List.mem_cons_self _ _)
      unfold collapseWhitespace
      rw [List.cons_append, collapseWhitespaceFrom]
      simp only [hr, if_true, Bool.false_eq_true, if_false]
      rw [hskip rs l (fun d hd => hrun d (List.mem_cons_of_mem _ hd)) hl]

/-- The scan computes `/^Speaker (1|2):/m.test(s)`: the text has the pattern at its
start or right after a line terminator. -/
theorem hasSpeakerLine_iff (s : String) :
    hasSpeakerLine s = true ↔
      ∃ before after, s.data = before ++ after ∧ startsWithSpeaker after = true
        ∧ (before = [] ∨ ∃ c, before.getLast? = some c ∧ isLineTerminator c = true) := by
  unfold hasSpeakerLine
  have key : ∀ (l : List Char) (b : Bool),
      hasSpeakerLineFrom b l = true ↔
        ∃ before after, l = before ++ after ∧ startsWithSpeaker after = true
          ∧ ((before = [] ∧ b = true)
              ∨ ∃ c, before.getLast? = some c ∧ isLineTerminator c = true) := by
    intro l
    induction l with
    | nil =>
      intro b
      simp only [hasSpeakerLineFrom, Bool.false_eq_true, false_iff, not_exists, not_and]
      intro before after hl hs
      have hnil := List.append_eq_nil.mp hl.symm
      rw [hnil.2] at hs
      exact absurd hs (by decide)
    | cons c cs ih =>
      intro b
      rw [hasSpeakerLineFrom]
      simp only [Bool.or_eq_true, Bool.and_eq_true]
      constructor
      · rintro (⟨hb, hs⟩ | hrest)
        · exact ⟨[], c :: cs, rfl, hs, Or.inl ⟨rfl, hb⟩⟩
        · obtain ⟨before, after, hl, hs, hc⟩ := (ih _).mp hrest
          refine ⟨c :: before, after, by rw [hl]; rfl, hs, Or.inr ?_⟩
          rcases hc with ⟨hnil, hterm⟩ | ⟨d, hd, hterm⟩
          · subst hnil; exact ⟨c, rfl, hterm⟩
          · refine ⟨d, ?_, hterm⟩
            cases before with
            | nil => simp at hd
            | cons x xs => rw [List.getLast?_cons_cons]; exact hd
      · rintro ⟨before, after, hl, hs, hc⟩
        cases before with
        | nil =>
          rcases hc with ⟨_, hb⟩ | ⟨d, hd, _⟩
          · left
            simp only [List.nil_append] at hl
            rw [hl]
            exact ⟨hb, hs⟩
          · simp at hd
        | cons x xs =>
          right
          simp only [List.cons_append, List.cons.injEq] at hl
          obtain ⟨hx, hcs⟩ := hl
          subst hx
          apply (ih _).mpr
          refine ⟨xs, after, hcs, hs, ?_⟩
          rcases hc with ⟨hnil, _⟩ | ⟨d, hd, hterm⟩
          · simp at hnil
          · cases xs with
            | nil =>
              left
              simp only [List.getLast?_singleton, Option.some.injEq] at hd
              subst hd
              exact ⟨rfl, hterm⟩
            | cons y ys =>
              right
              rw [List.getLast?_cons_cons] at hd
              exact ⟨d, hd, hterm⟩
  rw [key]
  constructor
  · rintro ⟨before, after, hl, hs, hc⟩
    refine ⟨before, after, hl, hs, ?_⟩
    rcases hc with ⟨h, _⟩ | h
    · exact Or.inl h
    · exact Or.inr h
  · rintro ⟨before, after, hl, hs, hc⟩
    refine ⟨before, after, hl, hs, ?_⟩
    rcases hc with h | h
    · exact Or.inl ⟨h, rfl⟩
    · exact Or.inr h

/-! ### The two-speaker fallback -/

/-- A match in progress always becomes a match. -/
theorem scanSentences_body_ne_nil (rev l : List Char) :
    scanSentences (.body rev) l ≠ [] ∧ scanSentences (.ending rev) l ≠ [] := by
  induction l generalizing rev with
  | nil => simp [scanSentences]
  | cons c cs ih =>
    constructor
    · rw [scanSentences]
      split_ifs
      · exact (ih _).1
      · exact (ih _).2
      · simp
    · rw [scanSentences]
      split_ifs
      · exact (ih _).2
      · simp
      · simp

/-- No match of `/[^.!?\n]+[.!?]*/g` contains a newline. -/
theorem scanSentences_no_newline (l : List Char) :
    (∀ seg ∈ scanSentences .outside l, '\n' ∉ seg)
    ∧ (∀ rev, '\n' ∉ rev → ∀ seg ∈ scanSentences (.body rev) l, '\n' ∉ seg)
    ∧ (∀ rev, '\n' ∉ rev → ∀ seg ∈ scanSentences (.ending rev) l, '\n' ∉ seg) := by
  induction l with
  | nil =>
    refine ⟨by simp [scanSentences], ?_, ?_⟩ <;>
    · intro rev hrev seg hseg
      simp only [scanSentences, List.mem_singleton] at hseg
      subst hseg
      simpa using hrev
  | cons c cs ih =>
    obtain ⟨ih1, ih2, ih3⟩ := ih
    have hchar : isSentenceChar c = true → c ≠ '\n' := by
      intro h heq; subst heq; revert h; decide
    have hend : isSentenceEnd c = true → c ≠ '\n' := by
      intro h heq; subst heq; revert h; decide
    refine ⟨?_, ?_, ?_⟩
    · intro seg hseg
      rw [scanSentences] at hseg
      split_ifs at hseg with h
      · exact ih2 [c] (by simpa using (hchar h).symm) seg hseg
      · exact ih1 seg hseg
    · intro rev hrev seg hseg
      rw [scanSentences] at hseg
      split_ifs at hseg with h h'
      · exact ih2 (c :: rev) (by simp [hrev, (hchar h).symm]) seg hseg
      · exact ih3 (c :: rev) (by simp [hrev, (hend h').symm]) seg hseg
      · rcases List.mem_cons.mp hseg with hs | hs
        · subst hs; simpa using hrev
        · exact ih1 seg hs
    · intro rev hrev seg hseg
      rw [scanSentences] at hseg
      split_ifs at hseg with h h'
      · exact ih3 (c :: rev) (by simp [hrev, (hend h).symm]) seg hseg
      · rcases List.mem_cons.mp hseg with hs | hs
        · subst hs; simpa using hrev
        · exact ih2 [c] (by simpa using (hchar h').symm) seg hs
      · rcases List.mem_cons.mp hseg with hs | hs
        · subst hs; simpa using hrev
        · exact ih1 seg hs

/-- There is no match exactly when no character is in `[^.!?\n]`. -/
theorem sentenceMatches_eq_nil_iff (l : List Char) :
    sentenceMatches l = [] ↔ ∀ c ∈ l, isSentenceChar c = false := by
  unfold sentenceMatches
  induction l with
  | nil => simp [scanSentences]
  | cons c cs ih =>
    rw [scanSentences]
    by_cases h : isSentenceChar c = true
    · simp only [h, if_true]
      constructor
      · intro hnil; exact absurd hnil (scanSentences_body_ne_nil [c] cs).1
      · intro hall; have := hall c (List.mem_cons_self _ _); simp [h] at this
    · simp only [h, if_false, Bool.false_eq_true]
      rw [ih]
      simp only [List.mem_cons, forall_eq_or_imp]
      constructor
      · intro hall; exact ⟨by simpa using h, hall⟩
      · intro hall; exact hall.2

/-- The whitespace-collapsed text has only characters of `[.!?\n]` exactly when the
text has only characters of `[.!?]`. -/
theorem collapseWhitespace_no_sentenceChar_iff (l : List Char) :
    (∀ c ∈ collapseWhitespace l, isSentenceChar c = false) ↔ ∀ c ∈ l, isSentenceEnd c = true := by
  unfold collapseWhitespace
  induction l with
  | nil => simp [collapseWhitespaceFrom]
  | cons c cs ih =>
    rw [collapseWhitespaceFrom]
    by_cases hws : isJsWhitespace c = true
    · simp only [hws, if_true, Bool.false_eq_true, if_false]
      constructor
      · intro hall
        have := hall ' ' (List.mem_cons_self _ _)
        exact absurd this (by decide)
      · intro hall
        have hc := hall c (List.mem_cons_self _ _)
        exfalso
        have : ∀ d : Char, isSentenceEnd d = true → isJsWhitespace d = false := by
          intro d hd
          simp only [isSentenceEnd, Bool.or_eq_true, decide_eq_true_eq] at hd
          rcases hd with (hd | hd) | hd <;> subst hd <;> decide
        rw [this c hc] at hws
        exact Bool.false_ne_true hws
    · simp only [hws, if_false, Bool.false_eq_true]
      simp only [List.mem_cons, forall_eq_or_imp, ih]
      have hiff : isSentenceChar c = false ↔ isSentenceEnd c = true := by
        have hnl : c ≠ '\n' := by
          intro heq; subst heq; exact hws (by decide)
        simp only [isSentenceChar, isSentenceEnd, hnl, decide_False, Bool.or_false,
          Bool.not_eq_false']
      rw [hiff]

/-- Trimming keeps only characters of the input. -/
theorem mem_of_mem_jsTrim {c : Char} {l : List Char} (h : c ∈ jsTrim l) : c ∈ l := by
  unfold jsTrim at h
  rw [List.mem_reverse] at h
  have h1 := (List.dropWhile_sublist isJsWhitespace).subset h
  rw [List.mem_reverse] at h1
  exact (List.dropWhile_sublist isJsWhitespace).subset h1

/-- The lines of `fallbackTwoSpeakers`, by position. -/
theorem speakerLines_get? (segs : List (List Char)) :
    ∀ (k i : Nat), (speakerLines k segs).get? i
      = (segs.get? i).map (fun seg => speakerLabel (k + i) ++ ": ".data ++ jsTrim seg) := by
  induction segs with
  | nil => intro k i; simp [speakerLines]
  | cons seg rest ih =>
    intro k i
    cases i with
    | zero => simp [speakerLines]
    | succ j =>
      simp only [speakerLines, List.get?_cons_succ, ih]
      have : k + 1 + j = k + (j + 1) := by ring
      rw [this]

/-- The lines of `fallbackTwoSpeakers` are as many as the segments. -/
theorem speakerLines_length (segs : List (List Char)) :
    ∀ k, (speakerLines k segs).length = segs.length := by
  induction segs with
  | nil => intro k; simp [speakerLines]
  | cons seg rest ih => intro k; simp [speakerLines, ih]

/-- The segments that `fallbackTwoSpeakers` labels contain no newline. -/
theorem fallbackParts_no_newline (text : List Char) :
    ∀ seg ∈ fallbackParts text, '\n' ∉ seg := by
  intro seg hseg
  unfold fallbackParts at hseg
  split at hseg
  · next hnil =>
    simp only [List.mem_singleton] at hseg
    subst hseg
    have h1 := (sentenceMatches_eq_nil_iff _).mp hnil
    have h2 := (collapseWhitespace_no_sentenceChar_iff _).mp h1
    intro hmem
    have := h2 _ hmem
    revert this; decide
  · next m ms hcons =>
    rw [← hcons] at hseg
    exact (scanSentences_no_newline _).1 seg hseg


/-- The lines that `fallbackTwoSpeakers` joins contain no newline and are not none. -/
theorem speakerLines_no_newline (text : List Char) :
    (∀ line ∈ speakerLines 0 (fallbackParts text), '\n' ∉ line)
    ∧ speakerLines 0 (fallbackParts text) ≠ [] := by
  constructor
  · intro line hline
    obtain ⟨i, hi⟩ := List.get?_of_mem hline
    rw [speakerLines_get?] at hi
    cases hseg : (fallbackParts text).get? i with
    | none => rw [hseg] at hi; simp at hi
    | some seg =>
      rw [hseg] at hi
      simp only [Option.map_some', Option.some.injEq] at hi
      subst hi
      have hno := fallbackParts_no_newline text seg (List.get?_mem hseg)
      simp only [List.mem_append, not_or]
      refine ⟨⟨?_, by decide⟩, fun h => hno (mem_of_mem_jsTrim h)⟩
      unfold speakerLabel
      split_ifs <;> decide
  · intro hnil
    have h := speakerLines_length (fallbackParts text) 0
    rw [hnil] at h
    unfold fallbackParts at h
    split at h <;> simp at h

/-- C10 (amended).  `fallbackTwoSpeakers` labels the list `parts`: the matches of
`/[^.!?\n]+[.!?]*/g` in the whitespace-collapsed text when there is at least one, and the
one-element list `[text]` when there is none, which is exactly when the text is empty or
has only `.`, `!` and `?` characters.  Split at newlines, its output has exactly one
line per element of `parts`, in order; line `i` is `Speaker 1: ` for even `i` and
`Speaker 2: ` for odd `i`, followed by the trimmed element; no line has a newline
inside. -/
theorem fallbackTwoSpeakers_lines (text : String) :
    (sentenceMatches (collapseWhitespace text.data) ≠ [] →
        fallbackParts text.data = sentenceMatches (collapseWhitespace text.data))
    ∧ (sentenceMatches (collapseWhitespace text.data) = [] →
        fallbackParts text.data = [text.data])
    ∧ (sentenceMatches (collapseWhitespace text.data) = [] ↔
        ∀ c ∈ text.data, isSentenceEnd c = true)
    ∧ ((fallbackTwoSpeakers text).data.splitOn '\n').length = (fallbackParts text.data).length
    ∧ (∀ i seg, (fallbackParts text.data).get? i = some seg →
        ((fallbackTwoSpeakers text).data.splitOn '\n').get? i
          = some ((if i % 2 = 0 then "Speaker 1: " else "Speaker 2: ").data ++ jsTrim seg))
    ∧ (∀ line ∈ (fallbackTwoSpeakers text).data.splitOn '\n', '\n' ∉ line) := by
  obtain ⟨hno, hne⟩ := speakerLines_no_newline text.data
  have hsplit : (fallbackTwoSpeakers text).data.splitOn '\n'
      = speakerLines 0 (fallbackParts text.data) := by
    unfold fallbackTwoSpeakers
    exact List.splitOn_intercalate _ _ hno hne
  refine ⟨?_, ?_, ?_, ?_, ?_, ?_⟩
  · intro h
    unfold fallbackParts
    split
    · next hnil => exact absurd hnil h
    · next m ms hcons => exact hcons.symm
  · intro h
    unfold fallbackParts
    rw [h]
  · rw [sentenceMatches_eq_nil_iff, collapseWhitespace_no_sentenceChar_iff]
  · rw [hsplit, speakerLines_length]
  · intro i seg hseg
    rw [hsplit, speakerLines_get?, hseg]
    simp only [Option.map_some', Nat.zero_add, speakerLabel]
    split_ifs <;> rfl
  · rw [hsplit]; exact hno

/-- Counterexample to C10 as stated: for the empty text no segment is detected, and the
output has one line, `Speaker 1: `. -/
theorem fallbackTwoSpeakers_lines_counterexample :
    sentenceMatches (collapseWhitespace "".data) = []
    ∧ (fallbackTwoSpeakers "").data.splitOn '\n' = ["Speaker 1: ".data]
    ∧ ¬ ((fallbackTwoSpeakers "").data.splitOn '\n').length
        = (sentenceMatches (collapseWhitespace "".data)).length := by
  decide

/-! ### The fallback chain of `transcribeFile` -/

/-- C9 (amended).  The final transcript is the formatted result `f` whenever `f` has a
line beginning with `Speaker 1:` or `Speaker 2:` or `f` is not empty; when `f` is empty
it is the raw transcript `r` if that is not empty, and `fallbackTwoSpeakers(r)`
otherwise.  This is the text that `transcribeFile` returns and writes when there is no
transcript yet and the transcription returns: `r` is the trimmed transcription and `f`
the result of `formatDialogue(r)`. -/
theorem selectFinalTranscript_chain (f r : String) :
    (hasSpeakerLine f = true → selectFinalTranscript f r = f)
    ∧ (f ≠ "" → selectFinalTranscript f r = f)
    ∧ (f = "" → r ≠ "" → selectFinalTranscript f r = r)
    ∧ (f = "" → r = "" → selectFinalTranscript f r = fallbackTwoSpeakers r)
    ∧ (∀ {X : Type} (H : Host) (S : Services X) (p : String) (w w1 : World X)
        (asr : Option String) (ev : List (RetryEvent (Option String))),
        w.fs (outPath H p) = none →
        withRetry (fun _ w => callTranscription S p w)
          { taskName := "openai.transcription", baseDelayMs := 2000 } w = ⟨.ok asr, w1, ev⟩ →
        r = String.mk (jsTrim (asr.getD "").data) →
        f = (formatDialogue S r w1).1 →
        (transcribeFile H S p w).1
          = .ok { wav := p, txt := outPath H p, text := selectFinalTranscript f r,
                  metadata := { status := "transcribed", model := some "gpt-4o-transcribe",
                                formattedWith := some "gpt-4o-mini" } }
        ∧ (transcribeFile H S p w).2.fs (outPath H p) = some (selectFinalTranscript f r)) := by
  have hempty : hasSpeakerLine "" = false := by decide
  refine ⟨?_, ?_, ?_, ?_, ?_⟩
  · intro h; simp [selectFinalTranscript, h]
  · intro h; unfold selectFinalTranscript; split_ifs <;> rfl
  · intro hf hr; subst hf; simp [selectFinalTranscript, hempty, hr]
  · intro hf hr; subst hf; simp [selectFinalTranscript, hempty, hr]
  · intro X H S p w w1 asr ev hnone hrun hr hf
    subst hr; subst hf
    unfold transcribeFile
    simp only [hnone, hrun]
    rcases formatDialogue S (String.mk (jsTrim (asr.getD "").data)) w1 with ⟨formatted, w2⟩
    simp [World.writeFile]

/-- Counterexample to C9 as stated: a formatted result without a speaker line that is
not empty is kept; the raw transcript is not used.  So `transcribeFile`, with a
transcription `raw text` and a completion `Hello there`, returns `Hello there`. -/
theorem selectFinalTranscript_counterexample :
    hasSpeakerLine "Hello there" = false
    ∧ selectFinalTranscript "Hello there" "raw text" = "Hello there"
    ∧ selectFinalTranscript "Hello there" "raw text" ≠ "raw text"
    ∧ (transcribeFile posixHost
        (scriptedServices (.ok (some "raw text")) (.ok (some "Hello there")))
        "/app/incoming/a.wav" (exampleWorld [])).1
      = .ok { wav := "/app/incoming/a.wav", txt := "/app/processed/a.txt",
              text := "Hello there",
              metadata := { status := "transcribed", model := some "gpt-4o-transcribe",
                            formattedWith := some "gpt-4o-mini" } } := by
  refine ⟨by decide, by decide, by decide, rfl⟩

/-- Witness for C9 (amended): with a transcription `raw text` and an empty completion,
`transcribeFile` returns the raw transcript. -/
theorem selectFinalTranscript_chain_witness :
    (transcribeFile posixHost (scriptedServices (.ok (some " raw text ")) (.ok (some "  ")))
        "/app/incoming/a.wav" (exampleWorld [])).1
      = .ok { wav := "/app/incoming/a.wav",
              txt := outPath posixHost "/app/incoming/a.wav",
              text := selectFinalTranscript "" "raw text",
              metadata := { status := "transcribed", model := some "gpt-4o-transcribe",
                            formattedWith := some "gpt-4o-mini" } }
    ∧ selectFinalTranscript "" "raw text" = "raw text" :=
  ⟨((selectFinalTranscript_chain "" "raw text").2.2.2.2 posixHost
      (scriptedServices (.ok (some " raw text ")) (.ok (some "  ")))
      "/app/incoming/a.wav" (exampleWorld []) _ (some " raw text ") _ (by decide) rfl
      (by decide) (by decide)).1,
   (selectFinalTranscript_chain "" "raw text").2.2.1 rfl (by decide)⟩

/-! ### Idempotent transcription -/

/-- C5 (idempotent transcription).  When a transcript exists at the output path of `p`,
`transcribeFile(p)` returns status `already-processed` with the content of that file as
text and leaves the whole state as it was: it makes no call at all, so neither the
transcription nor the reformatting capability is invoked.  After a first run that
returned, the transcript at the output path is the text it returned, so a second run
returns `already-processed` with the same text and changes nothing. -/
theorem transcribeFile_idempotent {X : Type} (H : Host) (S : Services X) (p : String) :
    (∀ (w : World X) (content : String), w.fs (outPath H p) = some content →
      transcribeFile H S p w
        = (.ok { wav := p, txt := outPath H p, text := content,
                 metadata := { status := "already-processed" } }, w))
    ∧ (∀ (w w1 : World X) (r : Transcription), transcribeFile H S p w = (.ok r, w1) →
        w1.fs (outPath H p) = some r.text
        ∧ transcribeFile H S p w1
          = (.ok { wav := p, txt := outPath H p, text := r.text,
                   metadata := { status := "already-processed" } }, w1)) := by
  have first : ∀ (w : World X) (content : String), w.fs (outPath H p) = some content →
      transcribeFile H S p w
        = (.ok { wav := p, txt := outPath H p, text := content,
                 metadata := { status := "already-processed" } }, w) := by
    intro w content h
    unfold transcribeFile
    simp only [h]
  refine ⟨first, ?_⟩
  intro w w1 r hrun
  have hfs : w1.fs (outPath H p) = some r.text := by
    unfold transcribeFile at hrun
    split at hrun
    · next content hc =>
      simp only [Prod.mk.injEq, Except.ok.injEq] at hrun
      obtain ⟨hr, hw⟩ := hrun
      subst hr; subst hw
      exact hc
    · next hnone =>
      split at hrun
      · simp at hrun
      · next asr w2 ev hretry =>
        split at hrun
        next formatted w3 hformat =>
        simp only [Prod.mk.injEq, Except.ok.injEq] at hrun
        obtain ⟨hr, hw⟩ := hrun
        subst hr; subst hw
        simp [World.writeFile]
  exact ⟨hfs, first w1 r.text hfs⟩

/-- Witness for C5: with `/app/processed/a.txt` on the disk, transcribing
`/app/incoming/a.wav` returns its content and makes no call. -/
theorem transcribeFile_idempotent_witness :
    (exampleWorld [("/app/processed/a.txt", "Speaker 1: hi")]).fs
        (outPath posixHost "/app/incoming/a.wav") = some "Speaker 1: hi"
    ∧ transcribeFile posixHost (exampleServices [] []) "/app/incoming/a.wav"
        (exampleWorld [("/app/processed/a.txt", "Speaker 1: hi")])
      = (.ok { wav := "/app/incoming/a.wav", txt := outPath posixHost "/app/incoming/a.wav",
               text := "Speaker 1: hi", metadata := { status := "already-processed" } },
         exampleWorld [("/app/processed/a.txt", "Speaker 1: hi")]) :=
  ⟨by decide,
   (transcribeFile_idempotent posixHost (exampleServices [] []) "/app/incoming/a.wav").1
     _ _ (by decide)⟩

/-! ### Batch isolation -/

/-- C3 (batch isolation).  `handleFile` never throws, whatever the services do; the
loop of `runPipeline` therefore handles every file of its list, in order, each from the
state the previous one left; and `runPipeline` handles exactly the capped batch of
`fetchNewFiles`.  With three remote files where the transcription of the second always
fails, the first and third are recorded and their staged copies deleted, the second is
neither recorded nor deleted. -/
theorem handleFiles_batch_isolation {X : Type} (H : Host) (S : Services X) (cfg : Config) :
    (∀ (file : String) (w : World X), (handleFile H S cfg file w).1 = .ok ())
    ∧ (∀ (files : List String) (w : World X),
        handleFiles H S cfg files w
          = (.ok (), files.foldl (fun w file => (handleFile H S cfg file w).2) w))
    ∧ (∀ w : World X,
        runPipeline H S cfg w
          = (.ok (), (capFiles cfg.pipelineMaxFiles (fetchNewFiles H S cfg w).1).foldl
              (fun w file => (handleFile H S cfg file w).2) (fetchNewFiles H S cfg w).2))
    ∧ ((runPipeline posixHost
          (exampleServices ["a.wav", "b.wav", "c.wav"] ["/app/incoming/b.wav"])
          exampleConfig (exampleWorld [])).2.records.map (fun r => r.source) = ["a.wav", "c.wav"]
      ∧ (runPipeline posixHost
          (exampleServices ["a.wav", "b.wav", "c.wav"] ["/app/incoming/b.wav"])
          exampleConfig (exampleWorld [])).2.fs "/app/incoming/a.wav" = none
      ∧ (runPipeline posixHost
          (exampleServices ["a.wav", "b.wav", "c.wav"] ["/app/incoming/b.wav"])
          exampleConfig (exampleWorld [])).2.fs "/app/incoming/b.wav"
            = some "audio of /remote/b.wav"
      ∧ (runPipeline posixHost
          (exampleServices ["a.wav", "b.wav", "c.wav"] ["/app/incoming/b.wav"])
          exampleConfig (exampleWorld [])).2.fs "/app/incoming/c.wav" = none) := by
  have hone : ∀ (file : String) (w : World X), (handleFile H S cfg file w).1 = .ok () := by
    intro file w
    unfold handleFile
    split <;> rfl
  have hall : ∀ (files : List String) (w : World X),
      handleFiles H S cfg files w
        = (.ok (), files.foldl (fun w file => (handleFile H S cfg file w).2) w) := by
    intro files
    induction files with
    | nil => intro w; rfl
    | cons file rest ih =>
      intro w
      rw [handleFiles]
      have h1 := hone file w
      rcases hh : handleFile H S cfg file w with ⟨r, w1⟩
      rw [hh] at h1
      simp only at h1
      subst h1
      simp only [List.foldl_cons, hh]
      exact ih w1
  refine ⟨hone, hall, ?_, by decide⟩
  intro w
  unfold runPipeline
  rcases hf : fetchNewFiles H S cfg w with ⟨files, w1⟩
  simp only []
  split_ifs with hlen
  · have : files = [] := List.length_eq_zero.mp hlen
    subst this
    cases hcap : cfg.pipelineMaxFiles <;> simp [capFiles]
  · exact hall _ _


/-! ### Invariants of `withRetry` -/

/-- A property that every failing invocation of the action preserves holds when the
loop of `withRetry` throws; and when the loop returns a value, an invocation returned it
from a state with the property, leaving the final state. -/
theorem retryLoop_invariant {σ α : Type} (action : Nat → σ → Except JsError α × σ)
    (opts : RetryOptions) (I : σ → Prop)
    (hI : ∀ k s e s', I s → action k s = (.error e, s') → I s') :
    ∀ (fuel a : Nat) (lastError : JsError) (s : σ), I s →
      (∀ e, (retryLoop action opts fuel a lastError s).result = .error e →
          I (retryLoop action opts fuel a lastError s).state)
      ∧ ∀ v, (retryLoop action opts fuel a lastError s).result = .ok v →
          ∃ k s0, I s0 ∧ action k s0 = (.ok v, (retryLoop action opts fuel a lastError s).state) := by
  intro fuel
  induction fuel with
  | zero =>
    intro a lastError s hs
    exact ⟨fun _ _ => hs, by intro v hv; simp [retryLoop] at hv⟩
  | succ f ih =>
    intro a lastError s hs
    rw [retryLoop]
    by_cases ha : a < opts.attempts
    · simp only [ha, if_true]
      rcases hact : action (a + 1) s with ⟨r, s'⟩
      cases r with
      | ok v =>
        refine ⟨by intro e he; simp at he, ?_⟩
        intro v' hv'
        simp only [Except.ok.injEq] at hv'
        subst hv'
        exact ⟨a + 1, s, hs, hact⟩
      | error err =>
        have hstep := hI (a + 1) s err s' hs hact
        simp only []
        by_cases hlast : a + 1 ≥ opts.attempts
        · simp only [hlast, if_true]
          exact ⟨fun _ _ => hstep, by intro v hv; simp at hv⟩
        · simp only [hlast, if_false]
          exact ih (a + 1) err s' hstep
    · simp only [ha, if_false]
      exact ⟨fun _ _ => hs, by intro v hv; simp at hv⟩

/-- A property that every invocation of the action preserves holds after `withRetry`. -/
theorem withRetry_invariant {σ α : Type} (action : Nat → σ → Except JsError α × σ)
    (opts : RetryOptions) (I : σ → Prop) (hI : ∀ k s, I s → I (action k s).2) (s : σ) (hs : I s) :
    I (withRetry action opts s).state := by
  have h := retryLoop_invariant action opts I
    (fun k s e s' hs hact => by have := hI k s hs; rw [hact] at this; exact this)
    opts.attempts 0 .undefined s hs
  unfold withRetry
  rcases hr : (retryLoop action opts opts.attempts 0 JsError.undefined s).result with e | v
  · exact h.1 e hr
  · obtain ⟨k, s0, hs0, hk⟩ := h.2 v hr
    have := hI k s0 hs0
    rw [hk] at this
    exact this

/-- When `withRetry` returns a value, an invocation returned it and left the final
state, from a state with any property that the failing invocations preserve. -/
theorem withRetry_ok_last {σ α : Type} (action : Nat → σ → Except JsError α × σ)
    (opts : RetryOptions) (I : σ → Prop)
    (hI : ∀ k s e s', I s → action k s = (.error e, s') → I s')
    (s : σ) (hs : I s) (v : α) (h : (withRetry action opts s).result = .ok v) :
    ∃ k s0, I s0 ∧ action k s0 = (.ok v, (withRetry action opts s).state) :=
  (retryLoop_invariant action opts I hI opts.attempts 0 .undefined s hs).2 v h

/-- When the first invocation succeeds, `withRetry` returns its value at once. -/
theorem withRetry_first_ok {σ α : Type} (action : Nat → σ → Except JsError α × σ)
    (opts : RetryOptions) (s s' : σ) (v : α) (hpos : 1 ≤ opts.attempts)
    (h : action 1 s = (.ok v, s')) :
    withRetry action opts s = ⟨.ok v, s', [.invoke 1 (.ok v)]⟩ := by
  unfold withRetry
  obtain ⟨n, hn⟩ : ∃ n, opts.attempts = n + 1 := ⟨opts.attempts - 1, by omega⟩
  rw [hn, retryLoop]
  have : 0 < opts.attempts := by omega
  simp only [this, if_true, Nat.zero_add, h]

/-! ### Steps -/

section Steps
variable {X : Type} {P : Event → Prop} {F : String → Prop}

theorem Step.refl (w : World X) : Step P F w w :=
  ⟨⟨[], by simp, by simp⟩, fun _ _ => rfl⟩

theorem Step.trans {u v w : World X} (h1 : Step P F u v) (h2 : Step P F v w) : Step P F u w := by
  obtain ⟨⟨e1, ht1, hp1⟩, hf1⟩ := h1
  obtain ⟨⟨e2, ht2, hp2⟩, hf2⟩ := h2
  refine ⟨⟨e1 ++ e2, by rw [ht2, ht1, List.append_assoc], ?_⟩, ?_⟩
  · intro e he
    rcases List.mem_append.mp he with h | h
    · exact hp1 e h
    · exact hp2 e h
  · intro p hp
    rw [hf2 p hp, hf1 p hp]

theorem Step.mono {P' : Event → Prop} {F' : String → Prop} {u v : World X}
    (h : Step P F u v) (hP : ∀ e, P e → P' e) (hF : ∀ p, F p → F' p) : Step P' F' u v := by
  obtain ⟨⟨e1, ht1, hp1⟩, hf1⟩ := h
  exact ⟨⟨e1, ht1, fun e he => hP e (hp1 e he)⟩, fun p hp => hf1 p (fun h => hp (hF p h))⟩

/-- A call is a step when its event is allowed. -/
theorem step_log (w : World X) (e : Event) (x : X) (he : P e) :
    Step P F w { w.log e with ext := x } :=
  ⟨⟨[e], rfl, by simpa using he⟩, fun _ _ => rfl⟩

/-- Writing a file of the footprint is a step. -/
theorem step_writeFile (w : World X) (p c : String) (hp : F p) : Step P F w (w.writeFile p c) := by
  refine ⟨⟨[], by simp [World.writeFile], by simp⟩, ?_⟩
  intro q hq
  have : q ≠ p := fun h => hq (h ▸ hp)
  simp [World.writeFile, this]

/-- Unlinking a file of the footprint is a step. -/
theorem step_unlink (w : World X) (p : String) (hp : F p) : Step P F w (w.unlink p) := by
  refine ⟨⟨[], by simp [World.unlink], by simp⟩, ?_⟩
  intro q hq
  have : q ≠ p := fun h => hq (h ▸ hp)
  simp [World.unlink, this]

/-- Changing the state of the services or the documents is a step. -/
theorem step_ext (w : World X) (x : X) (rs : List PipelineRecord) (b : Bool) :
    Step P F w { w with ext := x, records := rs, mongoCached := b } :=
  ⟨⟨[], by simp, by simp⟩, fun _ _ => rfl⟩

/-- `withRetry` is a step when every invocation of the action is one. -/
theorem withRetry_step {α : Type} (action : Nat → World X → Except JsError α × World X)
    (opts : RetryOptions) (w : World X) (h : ∀ k s, Step P F s (action k s).2) :
    Step P F w (withRetry action opts w).state :=
  withRetry_invariant action opts (fun s => Step P F w s)
    (fun k s hs => hs.trans (h k s)) w (Step.refl w)

theorem callConnect_step (S : Services X) (w : World X) (he : P .sftpConnect) :
    Step P F w (callConnect S w).2 := step_log w _ _ he

theorem callList_step (S : Services X) (dir : String) (w : World X) (he : P (.sftpList dir)) :
    Step P F w (callList S dir w).2 := step_log w _ _ he

theorem callEnd_step (S : Services X) (w : World X) (he : P .sftpEnd) :
    Step P F w (callEnd S w).2 := step_log w _ _ he

theorem callTranscription_step (S : Services X) (f : String) (w : World X)
    (he : P (.transcription f)) : Step P F w (callTranscription S f w).2 := step_log w _ _ he

theorem callChatCompletion_step (S : Services X) (raw : String) (w : World X)
    (he : ∀ r, P (.chatCompletion r)) : Step P F w (callChatCompletion S raw w).2 :=
  step_log w _ _ (he raw)

theorem callSend_step (S : Services X) (c : PutObjectCommand) (w : World X)
    (he : ∀ c, P (.s3Send c)) : Step P F w (callSend S c w).2 := step_log w _ _ (he c)

theorem callMongoConnect_step (S : Services X) (w : World X) (he : P .mongoConnect) :
    Step P F w (callMongoConnect S w).2 := step_log w _ _ he

theorem callInsertOne_step (S : Services X) (d : PipelineRecord) (w : World X)
    (he : ∀ d, P (.insertOne d)) : Step P F w (callInsertOne S d w).2 := by
  unfold callInsertOne
  split
  · exact ⟨⟨[.insertOne d], rfl, by simpa using he d⟩, fun _ _ => rfl⟩
  · exact step_log w _ _ (he d)

theorem callFastGet_step (S : Services X) (r l : String) (w : World X)
    (he : P (.sftpFastGet r l)) (hl : F l) : Step P F w (callFastGet S r l w).2 := by
  unfold callFastGet
  split
  · refine ⟨⟨[.sftpFastGet r l], rfl, by simpa using he⟩, ?_⟩
    intro q hq
    have : q ≠ l := fun h => hq (h ▸ hl)
    simp [World.writeFile, World.log, this]
  · refine ⟨⟨[.sftpFastGet r l], rfl, by simpa using he⟩, ?_⟩
    intro q hq
    have : q ≠ l := fun h => hq (h ▸ hl)
    simp [World.writeFile, World.log, this]
  · exact step_log w _ _ he

end Steps


/-! ### The stages of `handleFile` as steps -/

section Stages
variable {X : Type} {P : Event → Prop} {F : String → Prop}

theorem formatDialogue_step (S : Services X) (raw : String) (w : World X)
    (he : ∀ r, P (.chatCompletion r)) : Step P F w (formatDialogue S raw w).2 := by
  have h := withRetry_step (P := P) (F := F) (fun _ w => callChatCompletion S raw w)
    { taskName := "openai.formatDialogue", baseDelayMs := 1500 } w
    (fun _ s => callChatCompletion_step S raw s he)
  unfold formatDialogue
  split
  · next hr => rw [hr] at h; exact h
  · next hr => rw [hr] at h; exact h

theorem transcribeFile_step (H : Host) (S : Services X) (p : String) (w : World X)
    (ht : P (.transcription p)) (hc : ∀ r, P (.chatCompletion r)) (hf : F (outPath H p)) :
    Step P F w (transcribeFile H S p w).2 := by
  have h := withRetry_step (P := P) (F := F) (fun _ w => callTranscription S p w)
    { taskName := "openai.transcription", baseDelayMs := 2000 } w
    (fun _ s => callTranscription_step S p s ht)
  unfold transcribeFile
  split
  · exact Step.refl w
  · split
    · next hr => rw [hr] at h; exact h
    · next asr w1 ev hr =>
      rw [hr] at h
      split
      next formatted w2 hfmt =>
      have h2 := formatDialogue_step (P := P) (F := F) S
        (String.mk (jsTrim (asr.getD "").data)) w1 hc
      rw [hfmt] at h2
      exact (h.trans h2).trans (step_writeFile w2 _ _ hf)

theorem ensureProcessedAudio_step (H : Host) (a r : String) (w : World X)
    (hf : F (H.join (PROCESSED_DIR H) r)) : Step P F w (ensureProcessedAudio H a r w).2 := by
  unfold ensureProcessedAudio
  split_ifs
  · exact Step.refl w
  · split
    · exact step_writeFile w _ _ hf
    · exact Step.refl w

theorem renameFile_step (c t : String) (w : World X) (hc : F c) (ht : F t) :
    Step P F w (renameFile c t w).2 := by
  unfold renameFile
  split
  · exact (step_unlink w c hc).trans (step_writeFile _ _ _ ht)
  · exact Step.refl w

theorem ensureProcessedTranscript_step (H : Host) (txt r : String) (w : World X)
    (hc : F (H.resolve txt)) (ht : F (processedTranscriptPath H r)) :
    Step P F w (ensureProcessedTranscript H txt r w).2 := by
  unfold ensureProcessedTranscript
  split_ifs
  · exact (step_unlink w _ ht).trans (renameFile_step _ _ _ hc ht)
  · exact renameFile_step _ _ _ hc ht
  · exact Step.refl w

theorem putObject_step (H : Host) (S : Services X) (b f k m s : String) (w : World X)
    (he : ∀ c, P (.s3Send c)) : Step P F w (putObject H S b f k m s w).2 := by
  have h := withRetry_step (P := P) (F := F) (fun _ w => callSend S
        { bucket := b, key := k, body := f, acl := "private",
          contentType := detectContentType H f, metadataType := m, sourceFile := s } w)
    { taskName := "spaces.putObject", baseDelayMs := 1500 } w
    (fun _ s => callSend_step S _ s he)
  unfold putObject
  split
  · next hr => rw [hr] at h; exact h
  · next hr => rw [hr] at h; exact h

theorem uploadFiles_step (H : Host) (S : Services X) (cfg : Config) (a t s : String)
    (w : World X) (he : ∀ c, P (.s3Send c)) : Step P F w (uploadFiles H S cfg a t s w).2 := by
  unfold uploadFiles
  split_ifs
  · exact Step.refl w
  · split
    · exact Step.refl w
    · split
      · exact Step.refl w
      · have h1 := putObject_step (P := P) (F := F) H S cfg.spaces.bucket a
          (buildObjectKey H a cfg.spaces.pfx) "audio" s w he
        dsimp only
        split
        · next hr => rw [hr] at h1; exact h1
        · next w1 hr =>
          rw [hr] at h1
          have h2 := putObject_step (P := P) (F := F) H S cfg.spaces.bucket t
            (buildObjectKey H t cfg.spaces.pfx) "transcript" s w1 he
          split
          · next hr2 => rw [hr2] at h2; exact h1.trans h2
          · next hr2 => rw [hr2] at h2; exact h1.trans h2

theorem getClient_step (S : Services X) (w : World X) (he : P .mongoConnect) :
    Step P F w (getClient S w).2 := by
  have h := withRetry_step (P := P) (F := F) (fun _ w => callMongoConnect S w)
    { taskName := "mongo.connect", baseDelayMs := 1000 } w
    (fun _ s => callMongoConnect_step S s he)
  unfold getClient
  split_ifs
  · exact Step.refl w
  · split
    · next w1 ev hr =>
      rw [hr] at h
      exact h.trans ⟨⟨[], by simp, by simp⟩, fun _ _ => rfl⟩
    · next hr => rw [hr] at h; exact h

theorem insertRecord_step (S : Services X) (d : PipelineRecord) (w : World X)
    (hm : P .mongoConnect) (he : ∀ d, P (.insertOne d)) :
    Step P F w (insertRecord S d w).2 := by
  have h1 := getClient_step (P := P) (F := F) S w hm
  unfold insertRecord
  split
  · next hr => rw [hr] at h1; exact h1
  · next w1 hr =>
    rw [hr] at h1
    have h2 := withRetry_step (P := P) (F := F) (fun _ w => callInsertOne S d w)
      { taskName := "mongo.insert", baseDelayMs := 1000 } w1
      (fun _ s => callInsertOne_step S d s he)
    split
    · next hr2 => rw [hr2] at h2; exact h1.trans h2
    · next hr2 => rw [hr2] at h2; exact h1.trans h2

end Stages


/-! ### Cleanup only after the record -/

section Cleanup
variable {X : Type}

/-- The stages before `cleanup` make no call of `cleanup` and change files only at the
processed paths of the file. -/
theorem stagesSucceed_step (H : Host) (S : Services X) (cfg : Config) (a r : String)
    (w w4 w5 : World X) (record : PipelineRecord)
    (h : StagesSucceed H S cfg a r w w4 w5 record) :
    Step NotCleanup (ProcessedPaths H a r) w w5 := by
  obtain ⟨t, w1, ap, w2, tp, w3, u, h1, h2, h3, h4, _, h6⟩ := h
  have ht : t.txt = outPath H a := by
    unfold processFile transcribeFile at h1
    split at h1
    · simp only [Prod.mk.injEq, Except.ok.injEq] at h1; rw [← h1.1]
    · split at h1
      · simp at h1
      · split at h1
        simp only [Prod.mk.injEq, Except.ok.injEq] at h1; rw [← h1.1]
  have s1 := transcribeFile_step (P := NotCleanup) (F := ProcessedPaths H a r) H S a w
    (fun _ h => by cases h) (fun _ _ h => by cases h) (Or.inl rfl)
  have s2 := ensureProcessedAudio_step (P := NotCleanup) (F := ProcessedPaths H a r) H a r w1
    (Or.inr (Or.inr (Or.inl rfl)))
  have s3 := ensureProcessedTranscript_step (P := NotCleanup) (F := ProcessedPaths H a r)
    H t.txt r w2 (Or.inr (Or.inl (by rw [ht]))) (Or.inr (Or.inr (Or.inr rfl)))
  have s4 := uploadFiles_step (P := NotCleanup) (F := ProcessedPaths H a r) H S cfg ap tp r w3
    (fun _ _ h => by cases h)
  have s5 := insertRecord_step (P := NotCleanup) (F := ProcessedPaths H a r) S record w4
    (fun _ h => by cases h) (fun _ _ h => by cases h)
  unfold processFile at h1
  rw [h1] at s1; rw [h2] at s2; rw [h3] at s3; rw [h4] at s4; rw [h6] at s5
  exact (((s1.trans s2).trans s3).trans s4).trans s5

/-- When the stages succeed, the `try` block ends with `cleanup` of the staged file. -/
theorem handleFileBody_of_stagesSucceed (H : Host) (S : Services X) (cfg : Config)
    (a r : String) (w w4 w5 : World X) (record : PipelineRecord)
    (h : StagesSucceed H S cfg a r w w4 w5 record) :
    handleFileBody H S cfg a r w = (.ok (), cleanup a w5) := by
  obtain ⟨t, w1, ap, w2, tp, w3, u, h1, h2, h3, h4, h5, h6⟩ := h
  subst h5
  unfold handleFileBody
  simp only [h1, h2, h3, h4, h6]

/-- When some stage fails, the `try` block makes no call of `cleanup` and changes files
only at the processed paths of the file. -/
theorem handleFileBody_step_of_failure (H : Host) (S : Services X) (cfg : Config)
    (a r : String) (w : World X)
    (h : ¬ ∃ w4 w5 record, StagesSucceed H S cfg a r w w4 w5 record) :
    Step NotCleanup (ProcessedPaths H a r) w (handleFileBody H S cfg a r w).2 := by
  have s1 := transcribeFile_step (P := NotCleanup) (F := ProcessedPaths H a r) H S a w
    (fun _ h => by cases h) (fun _ _ h => by cases h) (Or.inl rfl)
  unfold handleFileBody
  rcases h1 : processFile H S a w with ⟨r1, w1⟩
  unfold processFile at h1
  rw [h1] at s1
  cases r1 with
  | error e => exact s1
  | ok t =>
    dsimp only
    have ht : t.txt = outPath H a := by
      unfold transcribeFile at h1
      split at h1
      · simp only [Prod.mk.injEq, Except.ok.injEq] at h1; rw [← h1.1]
      · split at h1
        · simp at h1
        · split at h1
          simp only [Prod.mk.injEq, Except.ok.injEq] at h1; rw [← h1.1]
    have s2 := ensureProcessedAudio_step (P := NotCleanup) (F := ProcessedPaths H a r) H a r w1
      (Or.inr (Or.inr (Or.inl rfl)))
    rcases h2 : ensureProcessedAudio H a r w1 with ⟨r2, w2⟩
    rw [h2] at s2
    cases r2 with
    | error e => exact s1.trans s2
    | ok ap =>
      dsimp only
      have s3 := ensureProcessedTranscript_step (P := NotCleanup) (F := ProcessedPaths H a r)
        H t.txt r w2 (Or.inr (Or.inl (by rw [ht]))) (Or.inr (Or.inr (Or.inr rfl)))
      rcases h3 : ensureProcessedTranscript H t.txt r w2 with ⟨r3, w3⟩
      rw [h3] at s3
      cases r3 with
      | error e => exact (s1.trans s2).trans s3
      | ok tp =>
        dsimp only
        have s4 := uploadFiles_step (P := NotCleanup) (F := ProcessedPaths H a r) H S cfg
          ap tp r w3 (fun _ _ h => by cases h)
        rcases h4 : uploadFiles H S cfg ap tp r w3 with ⟨r4, w4⟩
        rw [h4] at s4
        cases r4 with
        | error e => exact ((s1.trans s2).trans s3).trans s4
        | ok u =>
          dsimp only
          have s5 := insertRecord_step (P := NotCleanup) (F := ProcessedPaths H a r) S
            { source := r, audioUrl := u.audioUrl, textUrl := u.textUrl, transcript := t.text,
              metadata := t.metadata, storageKeys := u.keys } w4
            (fun _ h => by cases h) (fun _ _ h => by cases h)
          rcases h5 : insertRecord S
            { source := r, audioUrl := u.audioUrl, textUrl := u.textUrl, transcript := t.text,
              metadata := t.metadata, storageKeys := u.keys } w4 with ⟨r5, w5⟩
          rw [h5] at s5
          cases r5 with
          | error e => exact (((s1.trans s2).trans s3).trans s4).trans s5
          | ok _ =>
            exfalso
            exact h ⟨w4, w5, _, t, w1, ap, w2, tp, w3, u, h1, h2, h3, h4, rfl, h5⟩

/-- A successful `insertRecord` adds exactly the document to the collection. -/
theorem insertRecord_records (S : Services X) (d : PipelineRecord) (w w' : World X)
    (h : insertRecord S d w = (.ok (), w')) : w'.records = w.records ++ [d] := by
  have hcallE : ∀ (s s' : World X) (e : JsError), callInsertOne S d s = (.error e, s') →
      s'.records = s.records := by
    intro s s' e hs
    unfold callInsertOne at hs
    split at hs
    · simp at hs
    · simp only [Prod.mk.injEq] at hs; rw [← hs.2]; rfl
  have hcallO : ∀ (s s' : World X), callInsertOne S d s = (.ok (), s') →
      s'.records = s.records ++ [d] := by
    intro s s' hs
    unfold callInsertOne at hs
    split at hs
    · simp only [Prod.mk.injEq] at hs; rw [← hs.2]
    · simp at hs
  have hget : (getClient S w).2.records = w.records := by
    unfold getClient
    split_ifs
    · rfl
    · have hc := withRetry_invariant (fun _ w => callMongoConnect S w)
        { taskName := "mongo.connect", baseDelayMs := 1000 } (fun s => s.records = w.records)
        (fun _ s hs => by simpa [callMongoConnect, World.log] using hs) w rfl
      split
      · next hr => rw [hr] at hc; exact hc
      · next hr => rw [hr] at hc; exact hc
  unfold insertRecord at h
  split at h
  · simp at h
  · next w1 hg =>
    rw [hg] at hget
    simp only at hget
    split at h
    · next w2 ev hr =>
      simp only [Prod.mk.injEq, true_and] at h
      subst h
      obtain ⟨k, s0, hs0, hk⟩ := withRetry_ok_last (fun _ w => callInsertOne S d w)
        { taskName := "mongo.insert", baseDelayMs := 1000 } (fun s => s.records = w1.records)
        (fun k s e s' hs hact => (hcallE s s' e hact).trans hs)
        w1 rfl () (by rw [hr])
      rw [hr] at hk
      simp only at hk hs0
      rw [hcallO s0 w2 hk, hs0, hget]
    · simp at h

/-- `cleanup` records its call and leaves no file at the path. -/
theorem cleanup_spec (f : String) (w : World X) :
    (cleanup f w).trace = w.trace ++ [.cleanup f]
    ∧ (cleanup f w).fs f = none
    ∧ (∀ p, p ≠ f → (cleanup f w).fs p = w.fs p)
    ∧ (cleanup f w).records = w.records := by
  unfold cleanup
  split_ifs with h
  · refine ⟨rfl, by simp [World.unlink], ?_, rfl⟩
    intro p hp; simp [World.unlink, World.log, hp]
  · refine ⟨rfl, ?_, fun _ _ => rfl, rfl⟩
    simpa using h

/-- C4 (cleanup only after the record).  In `handleFile`, `cleanup` of the staged file
is called exactly when transcode, the two copies to the processed directory, archive
and record all succeeded.  Then the call of `cleanup` is the last thing that happens,
the document of the file has been added to the collection, and the staged file is
gone.  When a stage fails there is no call of `cleanup` at all, and every file outside
the processed paths of the file, so the staged file when it is not one of them, is as it
was before. -/
theorem handleFile_cleanup_iff_recorded (H : Host) (S : Services X) (cfg : Config)
    (file : String) (w : World X) :
    ∃ evs, (handleFile H S cfg file w).2.trace = w.trace ++ evs
      ∧ (Event.cleanup (resolveRelativeIncoming H file).1 ∈ evs ↔
          ∃ w4 w5 record, StagesSucceed H S cfg (resolveRelativeIncoming H file).1
            (resolveRelativeIncoming H file).2 w w4 w5 record)
      ∧ (∀ w4 w5 record, StagesSucceed H S cfg (resolveRelativeIncoming H file).1
            (resolveRelativeIncoming H file).2 w w4 w5 record →
          (handleFile H S cfg file w).2 = cleanup (resolveRelativeIncoming H file).1 w5
          ∧ (handleFile H S cfg file w).2.records = w4.records ++ [record]
          ∧ record.source = (resolveRelativeIncoming H file).2
          ∧ (handleFile H S cfg file w).2.fs (resolveRelativeIncoming H file).1 = none)
      ∧ (Event.cleanup (resolveRelativeIncoming H file).1 ∉ evs →
          (∀ f, Event.cleanup f ∉ evs)
          ∧ ∀ p, ¬ ProcessedPaths H (resolveRelativeIncoming H file).1
                (resolveRelativeIncoming H file).2 p →
              (handleFile H S cfg file w).2.fs p = w.fs p) := by
  unfold handleFile
  generalize (resolveRelativeIncoming H file).1 = a
  generalize (resolveRelativeIncoming H file).2 = r
  have hworld : ∀ (q : Except JsError Unit × World X),
      (match q with
        | (.ok _, w1) => ((.ok () : Except JsError Unit), w1)
        | (.error _, w1) => (.ok (), w1)).2 = q.2 := by
    intro q; rcases q with ⟨r, w1⟩; cases r <;> rfl
  rw [hworld]
  by_cases hs : ∃ w4 w5 record, StagesSucceed H S cfg a r w w4 w5 record
  · obtain ⟨w4, w5, record, hst⟩ := hs
    obtain ⟨⟨evs, htr, hev⟩, _⟩ := stagesSucceed_step H S cfg a r w w4 w5 record hst
    have hbody := handleFileBody_of_stagesSucceed H S cfg a r w w4 w5 record hst
    obtain ⟨ct, cf, _, cr⟩ := cleanup_spec a w5
    refine ⟨evs ++ [.cleanup a], ?_, ?_, ?_, ?_⟩
    · rw [hbody]; simp only; rw [ct, htr, List.append_assoc]
    · simp only [List.mem_append, List.mem_singleton, or_true, true_iff]
      exact ⟨w4, w5, record, hst⟩
    · intro w4' w5' record' hst'
      have hbody' := handleFileBody_of_stagesSucceed H S cfg a r w w4' w5' record' hst'
      obtain ⟨_, cf', _, cr'⟩ := cleanup_spec a w5'
      rw [hbody']
      refine ⟨rfl, ?_, ?_, cf'⟩
      · obtain ⟨t, w1, ap, w2, tp, w3, u, _, _, _, _, _, h6⟩ := hst'
        simp only
        rw [cr', insertRecord_records S record' w4' w5' h6]
      · obtain ⟨t, w1, ap, w2, tp, w3, u, _, _, _, _, h5, _⟩ := hst'
        rw [h5]
    · intro hnot
      exact absurd (List.mem_append_right _ (List.mem_singleton.mpr rfl)) hnot
  · obtain ⟨⟨evs, htr, hev⟩, hfs⟩ := handleFileBody_step_of_failure H S cfg a r w hs
    refine ⟨evs, htr, ?_, ?_, ?_⟩
    · constructor
      · intro hmem; exact absurd rfl (hev _ hmem a)
      · intro h; exact absurd h hs
    · intro w4 w5 record hst; exact absurd ⟨w4, w5, record, hst⟩ hs
    · intro _
      exact ⟨fun f hmem => absurd rfl (hev _ hmem f), hfs⟩

end Cleanup



/-- Witness for C4: the transcription of `/app/incoming/b.wav` fails, `cleanup` is not
called, and the staged file, which is not a processed path, is as it was; with services
that succeed, the last call is `cleanup` of the staged file, after the insertion. -/
theorem handleFile_cleanup_iff_recorded_witness :
    (handleFile posixHost (exampleServices [] ["/app/incoming/b.wav"]) exampleConfig
        "/app/incoming/b.wav" (exampleWorld [("/app/incoming/b.wav", "audio")])).2.fs
        "/app/incoming/b.wav"
      = (exampleWorld [("/app/incoming/b.wav", "audio")]).fs "/app/incoming/b.wav"
    ∧ (handleFile posixHost (exampleServices [] []) exampleConfig
        "/app/incoming/b.wav" (exampleWorld [("/app/incoming/b.wav", "audio")])).2.trace.getLast?
      = some (.cleanup "/app/incoming/b.wav")
    ∧ (handleFile posixHost (exampleServices [] []) exampleConfig
        "/app/incoming/b.wav" (exampleWorld [("/app/incoming/b.wav", "audio")])).2.records.map
        (fun r => r.source) = ["b.wav"]
    ∧ (handleFile posixHost (exampleServices [] []) exampleConfig
        "/app/incoming/b.wav" (exampleWorld [("/app/incoming/b.wav", "audio")])).2.fs
        "/app/incoming/b.wav" = none := by
  refine ⟨?_, by decide, by decide, by decide⟩
  obtain ⟨evs, htr, _, _, hfail⟩ :=
    handleFile_cleanup_iff_recorded posixHost (exampleServices [] ["/app/incoming/b.wav"])
      exampleConfig "/app/incoming/b.wav" (exampleWorld [("/app/incoming/b.wav", "audio")])
  have hevs : evs = (handleFile posixHost (exampleServices [] ["/app/incoming/b.wav"])
      exampleConfig "/app/incoming/b.wav"
      (exampleWorld [("/app/incoming/b.wav", "audio")])).2.trace := by
    rw [htr]; rfl
  refine (hfail ?_).2 _ ?_
  · rw [hevs]; decide
  · unfold ProcessedPaths; decide

/-! ### Fetching -/

section Fetch
variable {X : Type} {P : Event → Prop} {F : String → Prop}

mutual
/-- Listing the remote tree is a step: it only lists. -/
theorem collectAudioFiles_step (H : Host) (S : Services X) (he : ∀ d, P (.sftpList d)) :
    ∀ (dir : RemoteDir) (remoteDir : String) (w : World X),
      Step P F w (collectAudioFiles H S remoteDir dir w).2
  | .mk entries, remoteDir, w => by
    have h := withRetry_step (P := P) (F := F) (fun _ w => callList S remoteDir w)
      { taskName := "sftp.list", baseDelayMs := 750 } w
      (fun _ s => callList_step S remoteDir s (he remoteDir))
    rw [collectAudioFiles]
    split
    · next hr => rw [hr] at h; exact h
    · next w1 ev hr =>
      rw [hr] at h
      exact h.trans (collectEntries_step H S he entries remoteDir [] w1)
/-- Visiting the entries of a remote directory is a step: it only lists. -/
theorem collectEntries_step (H : Host) (S : Services X) (he : ∀ d, P (.sftpList d)) :
    ∀ (entries : RemoteEntries) (remoteDir : String) (acc : List String) (w : World X),
      Step P F w (collectEntries H S remoteDir entries acc w).2
  | .nil, remoteDir, acc, w => by
    rw [collectEntries]; exact Step.refl w
  | .cons name type sub rest, remoteDir, acc, w => by
    rw [collectEntries]
    split_ifs
    · exact collectEntries_step H S he rest remoteDir acc w
    · have h1 := collectAudioFiles_step H S he sub (H.posixJoin remoteDir name) w
      split
      · next nested w1 hr =>
        rw [hr] at h1
        exact h1.trans (collectEntries_step H S he rest remoteDir (acc ++ nested) w1)
      · next hr => rw [hr] at h1; exact h1
    · exact collectEntries_step H S he rest remoteDir _ w
    · exact collectEntries_step H S he rest remoteDir acc w
end

/-- One download attempt is a step that calls `fastGet` and changes the local file. -/
theorem downloadAttempt_step (S : Services X) (r l : String) (k : Nat) (w : World X)
    (he : P (.sftpFastGet r l)) (hl : F l) : Step P F w (downloadAttempt S r l k w).2 := by
  unfold downloadAttempt
  split_ifs
  · exact (step_unlink w l hl).trans (callFastGet_step S r l _ he hl)
  · exact callFastGet_step S r l w he hl

/-- The download loop, from a state reached by steps from `w0`: when every file it
finds missing locally may be downloaded (its event is allowed, its local path is in the
footprint) and then has the property `Q`, the loop is a step and every path of the
batch has the property `Q`. -/
theorem fetchLoop_step (H : Host) (S : Services X) (remotePath : String) (w0 : World X)
    (Q : String → Prop) :
    ∀ (files acc : List String) (w : World X),
      (∀ r ∈ files, ∀ v, Step P F w0 v → v.fs (localFileOf H remotePath r) = none →
        P (.sftpFastGet r (localFileOf H remotePath r)) ∧ F (localFileOf H remotePath r)
        ∧ Q (localFileOf H remotePath r)) →
      Step P F w0 w → (∀ p ∈ acc, Q p) →
      Step P F w0 (fetchLoop H S remotePath files acc w).2
      ∧ ∀ p ∈ (fetchLoop H S remotePath files acc w).1, Q p := by
  intro files
  induction files with
  | nil => intro acc w _ hw hacc; exact ⟨hw, hacc⟩
  | cons r rest ih =>
    intro acc w hD hw hacc
    have hrest : ∀ r' ∈ rest, ∀ v, Step P F w0 v → v.fs (localFileOf H remotePath r') = none →
        P (.sftpFastGet r' (localFileOf H remotePath r')) ∧ F (localFileOf H remotePath r')
        ∧ Q (localFileOf H remotePath r') :=
      fun r' hr' => hD r' (List.mem_cons_of_mem _ hr')
    rw [fetchLoop]
    split_ifs with hex
    · exact ih acc w hrest hw hacc
    · have hnone : w.fs (localFileOf H remotePath r) = none := by
        simpa using hex
      obtain ⟨hp, hf, hq⟩ := hD r (List.mem_cons_self _ _) w hw hnone
      have hs := withRetry_step (P := P) (F := F)
        (downloadAttempt S r (localFileOf H remotePath r))
        { taskName := "sftp.download", baseDelayMs := 1000 } w
        (fun k s => downloadAttempt_step S r _ k s hp hf)
      split
      · next w1 ev hr =>
        rw [hr] at hs
        refine ih _ w1 hrest (hw.trans hs) ?_
        intro p hp'
        rcases List.mem_append.mp hp' with h | h
        · exact hacc p h
        · rw [List.mem_singleton.mp h]; exact hq
      · next w1 ev hr =>
        rw [hr] at hs
        exact ih acc w1 hrest (hw.trans hs) hacc

/-- `fetchNewFiles` under the conditions of `fetchLoop_step` for the capped listing. -/
theorem fetchNewFiles_step (H : Host) (S : Services X) (cfg : Config) (w : World X)
    (Q : String → Prop) (hc : P .sftpConnect) (hl : ∀ d, P (.sftpList d)) (he : P .sftpEnd)
    (hD : ∀ audioFiles w2,
      collectAudioFiles H S cfg.sftp.remotePath S.remote
          (withRetry (fun _ w => callConnect S w)
            { taskName := "sftp.connect", baseDelayMs := 1000 } w).state = (.ok audioFiles, w2) →
      ∀ r ∈ capFiles cfg.sftp.maxFiles audioFiles, ∀ v, Step P F w v →
        v.fs (localFileOf H cfg.sftp.remotePath r) = none →
        P (.sftpFastGet r (localFileOf H cfg.sftp.remotePath r))
        ∧ F (localFileOf H cfg.sftp.remotePath r) ∧ Q (localFileOf H cfg.sftp.remotePath r)) :
    Step P F w (fetchNewFiles H S cfg w).2 ∧ ∀ p ∈ (fetchNewFiles H S cfg w).1, Q p := by
  have hbody : Step P F w (fetchBody H S cfg w).2 ∧ ∀ p ∈ (fetchBody H S cfg w).1, Q p := by
    unfold fetchBody
    split
    · exact ⟨Step.refl w, by simp⟩
    · next conn hv =>
      have hpath : conn.remotePath = cfg.sftp.remotePath := by
        unfold validateConfig at hv
        split_ifs at hv
        simp only [Except.ok.injEq] at hv
        rw [← hv]
      have h1 := withRetry_step (P := P) (F := F) (fun _ w => callConnect S w)
        { taskName := "sftp.connect", baseDelayMs := 1000 } w
        (fun _ s => callConnect_step S s hc)
      split
      · next hr => rw [hr] at h1; exact ⟨h1, by simp⟩
      · next w1 ev hr =>
        rw [hr] at h1 hD
        rw [hpath]
        have h2 := collectAudioFiles_step (P := P) (F := F) H S hl S.remote
          cfg.sftp.remotePath w1
        split
        · next hr2 => rw [hr2] at h2; exact ⟨h1.trans h2, by simp⟩
        · next audioFiles w2 hr2 =>
          rw [hr2] at h2
          exact fetchLoop_step H S cfg.sftp.remotePath w Q _ [] w2
            (hD audioFiles w2 hr2) (h1.trans h2) (by simp)
  unfold fetchNewFiles
  rcases hb : fetchBody H S cfg w with ⟨files, w1⟩
  rw [hb] at hbody
  exact ⟨hbody.1.trans (callEnd_step S w1 he), hbody.2⟩

/-- What `fetchNewFiles` does to the disk: it downloads only to the local path of the
remote file and only where no file was at the start, it returns only such paths, and it
leaves every file that existed at the start as it was. -/
theorem fetchNewFiles_frame (H : Host) (S : Services X) (cfg : Config) (w : World X) :
    ∃ evs, (fetchNewFiles H S cfg w).2.trace = w.trace ++ evs
      ∧ (∀ r l, Event.sftpFastGet r l ∈ evs →
          l = localFileOf H cfg.sftp.remotePath r ∧ w.fs l = none)
      ∧ (∀ p, w.fs p ≠ none → (fetchNewFiles H S cfg w).2.fs p = w.fs p)
      ∧ (∀ p ∈ (fetchNewFiles H S cfg w).1, w.fs p = none) := by
  obtain ⟨⟨⟨evs, htr, hev⟩, hfs⟩, hq⟩ := fetchNewFiles_step
    (P := fun e => ∀ r l, e = .sftpFastGet r l →
      l = localFileOf H cfg.sftp.remotePath r ∧ w.fs l = none)
    (F := fun p => w.fs p = none) H S cfg w (fun p => w.fs p = none)
    (fun _ _ h => by cases h) (fun _ _ _ h => by cases h) (fun _ _ h => by cases h)
    (by
      intro audioFiles w2 _ r _ v hv hnone
      have hw : w.fs (localFileOf H cfg.sftp.remotePath r) = none := by
        by_contra hne
        rw [hv.2 _ hne] at hnone
        exact hne hnone
      refine ⟨?_, hw, hw⟩
      intro r' l' heq
      simp only [Event.sftpFastGet.injEq] at heq
      rw [← heq.1, ← heq.2]
      exact ⟨rfl, hw⟩)
  exact ⟨evs, htr, fun r l hmem => hev _ hmem r l rfl, hfs, hq⟩

/-- C6 (no second download).  The calls that `fetchNewFiles` adds contain a download
only to the local path of its remote file and only when no file was at that path at the
start, so an entry whose local copy exists is never downloaded; and every file that
existed at the start is unchanged at the end. -/
theorem fetchNewFiles_skips_existing (H : Host) (S : Services X) (cfg : Config) (w : World X) :
    ∃ evs, (fetchNewFiles H S cfg w).2.trace = w.trace ++ evs
      ∧ (∀ r l, Event.sftpFastGet r l ∈ evs →
          l = localFileOf H cfg.sftp.remotePath r ∧ w.fs l = none)
      ∧ (∀ r, (w.fs (localFileOf H cfg.sftp.remotePath r)).isSome = true →
          ∀ l, Event.sftpFastGet r l ∉ evs)
      ∧ (∀ p content, w.fs p = some content →
          (fetchNewFiles H S cfg w).2.fs p = some content) := by
  obtain ⟨evs, htr, hev, hfs, _⟩ := fetchNewFiles_frame H S cfg w
  refine ⟨evs, htr, hev, ?_, ?_⟩
  · intro r hsome l hmem
    obtain ⟨hl, hnone⟩ := hev r l hmem
    rw [hl] at hnone
    rw [hnone] at hsome
    simp at hsome
  · intro p content hp
    rw [hfs p (by simp [hp]), hp]

/-- C7 (amended).  A file that is in the incoming directory at the start of a run is
not downloaded again and is left as it is, but it is not part of the batch of that run:
`fetchNewFiles` returns only local paths at which there was no file at the start (the
files it downloaded), and `runPipeline` passes to `handleFile` exactly the capped
batch, in which the file is not. -/
theorem fetchNewFiles_batch_excludes_staged (H : Host) (S : Services X) (cfg : Config)
    (w : World X) (p : String) (hstaged : (w.fs p).isSome = true) :
    p ∉ (fetchNewFiles H S cfg w).1
    ∧ p ∉ capFiles cfg.pipelineMaxFiles (fetchNewFiles H S cfg w).1
    ∧ runPipeline H S cfg w
        = handleFiles H S cfg (capFiles cfg.pipelineMaxFiles (fetchNewFiles H S cfg w).1)
            (fetchNewFiles H S cfg w).2
    ∧ (fetchNewFiles H S cfg w).2.fs p = w.fs p
    ∧ ∃ evs, (fetchNewFiles H S cfg w).2.trace = w.trace ++ evs
        ∧ ∀ r, Event.sftpFastGet r p ∉ evs := by
  obtain ⟨evs, htr, hev, hfs, hq⟩ := fetchNewFiles_frame H S cfg w
  have hne : w.fs p ≠ none := by
    intro hnone
    rw [hnone] at hstaged
    simp at hstaged
  have hnot : p ∉ (fetchNewFiles H S cfg w).1 := fun hmem => hne (hq p hmem)
  have hsub : ∀ (limit : Option Nat) (files : List String), ∀ q ∈ capFiles limit files, q ∈ files := by
    intro limit files q hq'
    unfold capFiles at hq'
    split at hq'
    · exact hq'
    · split_ifs at hq'
      · exact List.mem_of_mem_take hq'
      · exact hq'
  refine ⟨hnot, fun h => hnot (hsub _ _ p h), ?_, hfs p hne, evs, htr, ?_⟩
  · unfold runPipeline
    rcases hf : fetchNewFiles H S cfg w with ⟨files, w1⟩
    simp only
    split_ifs with hlen
    · have : files = [] := List.length_eq_zero.mp hlen
      subst this
      cases hcap : cfg.pipelineMaxFiles <;> simp [capFiles, handleFiles]
    · rfl
  · intro r hmem
    exact hne (hev r p hmem).2

/-- Witness for C7 (amended): `/app/incoming/a.wav` is staged and listed remotely; the
batch does not contain it. -/
theorem fetchNewFiles_batch_excludes_staged_witness :
    ((exampleWorld [("/app/incoming/a.wav", "audio")]).fs "/app/incoming/a.wav").isSome = true
    ∧ "/app/incoming/a.wav" ∉ (fetchNewFiles posixHost (exampleServices ["a.wav"] [])
        exampleConfig (exampleWorld [("/app/incoming/a.wav", "audio")])).1 :=
  ⟨by decide,
   (fetchNewFiles_batch_excludes_staged posixHost (exampleServices ["a.wav"] []) exampleConfig
     (exampleWorld [("/app/incoming/a.wav", "audio")]) "/app/incoming/a.wav" (by decide)).1⟩

/-- Counterexample to C7 as stated: `a.wav` is listed remotely (within the cap, there
is none) and staged at `/app/incoming/a.wav` from an earlier run.  The batch of the run
is empty, so `runPipeline` handles no file: it only connects, lists and disconnects, the
staged file stays, and nothing is recorded. -/
theorem runPipeline_retry_counterexample :
    (exampleWorld [("/app/incoming/a.wav", "audio")]).fs
        (localFileOf posixHost exampleConfig.sftp.remotePath "/remote/a.wav") = some "audio"
    ∧ (fetchNewFiles posixHost (exampleServices ["a.wav"] []) exampleConfig
        (exampleWorld [("/app/incoming/a.wav", "audio")])).1 = []
    ∧ "/app/incoming/a.wav" ∉ capFiles exampleConfig.pipelineMaxFiles
        (fetchNewFiles posixHost (exampleServices ["a.wav"] []) exampleConfig
          (exampleWorld [("/app/incoming/a.wav", "audio")])).1
    ∧ (runPipeline posixHost (exampleServices ["a.wav"] []) exampleConfig
        (exampleWorld [("/app/incoming/a.wav", "audio")])).2.trace
        = [.sftpConnect, .sftpList "/remote", .sftpEnd]
    ∧ (runPipeline posixHost (exampleServices ["a.wav"] []) exampleConfig
        (exampleWorld [("/app/incoming/a.wav", "audio")])).2.records = []
    ∧ (runPipeline posixHost (exampleServices ["a.wav"] []) exampleConfig
        (exampleWorld [("/app/incoming/a.wav", "audio")])).2.fs "/app/incoming/a.wav"
        = some "audio" := by
  decide

/-- When every `fastGet` succeeds, no local path of the files exists and the local paths
are distinct, the download loop returns the local paths of all the files, in order. -/
theorem fetchLoop_all_ok (H : Host) (S : Services X) (remotePath : String)
    (hdl : ∀ r l x, ∃ c x', S.sftpFastGet r l x = (.done c, x')) :
    ∀ (files acc : List String) (w : World X),
      (∀ r ∈ files, w.fs (localFileOf H remotePath r) = none) →
      (files.map (localFileOf H remotePath)).Nodup →
      (fetchLoop H S remotePath files acc w).1 = acc ++ files.map (localFileOf H remotePath) := by
  intro files
  induction files with
  | nil => intro acc w _ _; simp [fetchLoop]
  | cons r rest ih =>
    intro acc w hnone hnd
    have hr : w.fs (localFileOf H remotePath r) = none := hnone r (List.mem_cons_self _ _)
    obtain ⟨c, x', hget⟩ := hdl r (localFileOf H remotePath r) w.ext
    have hact : downloadAttempt S r (localFileOf H remotePath r) 1 w
        = (.ok (), { (w.log (.sftpFastGet r (localFileOf H remotePath r))).writeFile
            (localFileOf H remotePath r) c with ext := x' }) := by
      unfold downloadAttempt
      simp only [gt_iff_lt, lt_self_iff_false, false_and, if_false]
      unfold callFastGet
      rw [hget]
    have hrun := withRetry_first_ok (downloadAttempt S r (localFileOf H remotePath r))
      { taskName := "sftp.download", baseDelayMs := 1000 } w _ () (by decide) hact
    rw [fetchLoop]
    simp only [hr, Option.isSome_none, Bool.false_eq_true, if_false, hrun]
    rw [List.map_cons, List.nodup_cons] at hnd
    rw [ih _ _ ?_ hnd.2]
    · simp
    · intro r' hr'
      have hne : localFileOf H remotePath r' ≠ localFileOf H remotePath r := by
        intro heq
        exact hnd.1 (heq ▸ List.mem_map_of_mem _ hr')
      simp only [World.writeFile, World.log, hne, if_false]
      exact hnone r' (List.mem_cons_of_mem _ hr')

/-- The cap keeps the first `c` files. -/
theorem capFiles_some (c : Nat) (hc : 0 < c) (files : List String) :
    capFiles (some c) files = files.take c := by
  unfold capFiles
  simp only []
  split_ifs with h
  · rfl
  · have : files.length ≤ c := by
      by_contra hlt
      exact h ⟨by omega, by omega⟩
    rw [List.take_of_length_le this]

/-- `resolveLimit` yields `null` or a positive number. -/
theorem resolveLimit_pos (v : Option String) (c : Nat) (h : resolveLimit v = some c) : 0 < c := by
  unfold resolveLimit at h
  split at h
  · simp at h
  · split_ifs at h
    split at h
    · simp at h
    · next parsed hp =>
      split_ifs at h with hle
      simp only [Option.some.injEq] at h
      omega

/-- C8 (batch cap).  Let the configured cap be `resolveLimit` of the environment value
and let the listing of the run be `audioFiles` (`n` files).  With a cap `c` (always
positive) the files considered are the first `min c n` of the listing, without a cap all
of them; `fetchNewFiles` downloads only files considered (it has no error to raise:
the rest is just not visited); and when every download succeeds, none of the files
considered is staged and their local paths are distinct, it returns exactly their local
paths, `min c n` or `n` of them.  The cap is `null` for an unset or empty value and
for a value that parses to no number or to a number that is not positive.  With the
value `2` and five remote files, two paths are returned. -/
theorem fetchNewFiles_cap (H : Host) (S : Services X) (cfg : Config) (w w2 : World X)
    (v : Option String) (audioFiles : List String)
    (hcap : cfg.sftp.maxFiles = resolveLimit v)
    (hcfg : ∃ conn, validateConfig cfg = .ok conn)
    (hconn : (withRetry (fun _ w => callConnect S w)
        { taskName := "sftp.connect", baseDelayMs := 1000 } w).result = .ok ())
    (hlist : collectAudioFiles H S cfg.sftp.remotePath S.remote
        (withRetry (fun _ w => callConnect S w)
          { taskName := "sftp.connect", baseDelayMs := 1000 } w).state = (.ok audioFiles, w2)) :
    (∀ c, resolveLimit v = some c →
        0 < c ∧ capFiles cfg.sftp.maxFiles audioFiles = audioFiles.take (min c audioFiles.length))
    ∧ (resolveLimit v = none → capFiles cfg.sftp.maxFiles audioFiles = audioFiles)
    ∧ (resolveLimit none = none ∧ resolveLimit (some "") = none
        ∧ ∀ s, (∀ n, parseInt10 s = some n → n ≤ 0) → resolveLimit (some s) = none)
    ∧ (∃ evs, (fetchNewFiles H S cfg w).2.trace = w.trace ++ evs
        ∧ ∀ r l, Event.sftpFastGet r l ∈ evs → r ∈ capFiles cfg.sftp.maxFiles audioFiles)
    ∧ ((∀ r l x, ∃ c x', S.sftpFastGet r l x = (.done c, x')) →
        (∀ r ∈ capFiles cfg.sftp.maxFiles audioFiles,
          w.fs (localFileOf H cfg.sftp.remotePath r) = none) →
        ((capFiles cfg.sftp.maxFiles audioFiles).map
          (localFileOf H cfg.sftp.remotePath)).Nodup →
        (fetchNewFiles H S cfg w).1
            = (capFiles cfg.sftp.maxFiles audioFiles).map (localFileOf H cfg.sftp.remotePath)
        ∧ (∀ c, resolveLimit v = some c →
            (fetchNewFiles H S cfg w).1.length = min c audioFiles.length)
        ∧ (resolveLimit v = none → (fetchNewFiles H S cfg w).1.length = audioFiles.length))
    ∧ (fetchNewFiles posixHost
          (exampleServices ["a.wav", "b.wav", "c.wav", "d.wav", "e.wav"] [])
          (exampleConfigWithCap (some "2")) (exampleWorld [])).1
        = ["/app/incoming/a.wav", "/app/incoming/b.wav"] := by
  have hsome : ∀ c, resolveLimit v = some c →
      0 < c ∧ capFiles cfg.sftp.maxFiles audioFiles = audioFiles.take (min c audioFiles.length) := by
    intro c hc
    have hpos := resolveLimit_pos v c hc
    refine ⟨hpos, ?_⟩
    rw [hcap, hc, capFiles_some c hpos]
    rcases Nat.le_total c audioFiles.length with h | h
    · rw [Nat.min_eq_left h]
    · rw [Nat.min_eq_right h, List.take_of_length_le h, List.take_of_length_le (le_refl _)]
  have hnone : resolveLimit v = none → capFiles cfg.sftp.maxFiles audioFiles = audioFiles := by
    intro hn; rw [hcap, hn]; rfl
  refine ⟨hsome, hnone, ⟨rfl, rfl, ?_⟩, ?_, ?_, by decide⟩
  · intro s hs
    unfold resolveLimit
    simp only []
    split_ifs
    · rfl
    · split
      · rfl
      · next parsed hp => simp [hs parsed hp]
  · obtain ⟨⟨⟨evs, htr, hev⟩, _⟩, _⟩ := fetchNewFiles_step
      (P := fun e => ∀ r l, e = .sftpFastGet r l → r ∈ capFiles cfg.sftp.maxFiles audioFiles)
      (F := fun _ => True) H S cfg w (fun _ => True)
      (fun _ _ h => by cases h) (fun _ _ _ h => by cases h) (fun _ _ h => by cases h)
      (by
        intro files w2' hl r hr v' _ _
        rw [hlist] at hl
        simp only [Prod.mk.injEq, Except.ok.injEq] at hl
        rw [← hl.1] at hr
        refine ⟨?_, trivial, trivial⟩
        intro r' l' heq
        simp only [Event.sftpFastGet.injEq] at heq
        rw [← heq.1]; exact hr)
    exact ⟨evs, htr, fun r l hmem => hev _ hmem r l rfl⟩
  · intro hdl hstaged hnd
    have hfs : ∀ p, w2.fs p = w.fs p := by
      have h1 := withRetry_step (P := fun _ => True) (F := fun _ => False)
        (fun _ w => callConnect S w)
        { taskName := "sftp.connect", baseDelayMs := 1000 } w
        (fun _ s => callConnect_step S s trivial)
      have h2 := collectAudioFiles_step (P := fun _ => True) (F := fun _ => False) H S
        (fun _ => trivial) S.remote cfg.sftp.remotePath
        (withRetry (fun _ w => callConnect S w)
          { taskName := "sftp.connect", baseDelayMs := 1000 } w).state
      rw [hlist] at h2
      intro p
      exact (h1.trans h2).2 p (fun h => h)
    have hres : (fetchNewFiles H S cfg w).1
        = (capFiles cfg.sftp.maxFiles audioFiles).map (localFileOf H cfg.sftp.remotePath) := by
      obtain ⟨conn, hv⟩ := hcfg
      have hpath : conn.remotePath = cfg.sftp.remotePath := by
        unfold validateConfig at hv
        split_ifs at hv
        simp only [Except.ok.injEq] at hv
        rw [← hv]
      unfold fetchNewFiles fetchBody
      rw [hv]
      simp only []
      rcases hr : withRetry (fun _ w => callConnect S w)
          { taskName := "sftp.connect", baseDelayMs := 1000 } w with ⟨res, w1, ev⟩
      rw [hr] at hconn hlist
      simp only at hconn hlist
      subst hconn
      simp only [hpath, hlist]
      rw [fetchLoop_all_ok H S cfg.sftp.remotePath hdl _ [] w2
        (fun r hr' => by rw [hfs]; exact hstaged r hr') hnd]
      simp
    refine ⟨hres, ?_, ?_⟩
    · intro c hc
      rw [hres, List.length_map, (hsome c hc).2, List.length_take]
      omega
    · intro hn
      rw [hres, List.length_map, hnone hn]

/-- Witness for C8: five remote files, the value `2`, nothing staged. -/
theorem fetchNewFiles_cap_witness :
    (fetchNewFiles posixHost (exampleServices ["a.wav", "b.wav", "c.wav", "d.wav", "e.wav"] [])
        (exampleConfigWithCap (some "2")) (exampleWorld [])).1.length = min 2 5 :=
  ((fetchNewFiles_cap posixHost (exampleServices ["a.wav", "b.wav", "c.wav", "d.wav", "e.wav"] [])
      (exampleConfigWithCap (some "2")) (exampleWorld [])
      (collectAudioFiles posixHost
        (exampleServices ["a.wav", "b.wav", "c.wav", "d.wav", "e.wav"] []) "/remote"
        (exampleServices ["a.wav", "b.wav", "c.wav", "d.wav", "e.wav"] []).remote
        (withRetry (fun _ w => callConnect
            (exampleServices ["a.wav", "b.wav", "c.wav", "d.wav", "e.wav"] []) w)
          { taskName := "sftp.connect", baseDelayMs := 1000 } (exampleWorld [])).state).2
      (some "2")
      ["/remote/a.wav", "/remote/b.wav", "/remote/c.wav", "/remote/d.wav", "/remote/e.wav"]
      rfl ⟨_, rfl⟩ rfl rfl).2.2.2.2.1
    (fun r l x => ⟨_, _, rfl⟩) (by decide) (by decide)).2.1 2 (by decide)

end Fetch


/-! ### The remote listing -/

/-- The pattern `/\.(wav|mp3|m4a)$/i` holds exactly for the names that end in one of the
three extensions, compared without regard to case. -/
theorem hasAudioExtension_eq (name : String) :
    hasAudioExtension name = endsInAudioExtension name := by
  have key : ∀ (ext l : List Char), ext.length = 4 →
      ext.isSuffixOf l = (l.drop (l.length - 4) == ext) := by
    intro ext l hext
    rw [Bool.eq_iff_iff, List.isSuffixOf_iff_suffix, List.suffix_iff_eq_drop, hext, beq_iff_eq]
    exact eq_comm
  unfold hasAudioExtension endsInAudioExtension
  rw [key ".wav".data _ rfl, key ".mp3".data _ rfl, key ".m4a".data _ rfl]
  simp only [List.length_map, List.any_cons, List.any_nil, Bool.or_false, List.map_drop,
    Bool.or_assoc]

section Listing
variable {X : Type}

/-- When listing succeeds, one listing with retries returns at the first attempt. -/
theorem withRetry_callList_ok (S : Services X) (hlist : ∀ d x, (S.sftpList d x).1 = .ok ())
    (remoteDir : String) (w : World X) :
    withRetry (fun _ w => callList S remoteDir w)
        { taskName := "sftp.list", baseDelayMs := 750 } w
      = ⟨.ok (), (callList S remoteDir w).2, [.invoke 1 (.ok ())]⟩ := by
  apply withRetry_first_ok _ _ _ _ _ (by decide)
  show callList S remoteDir w = _
  unfold callList
  rw [hlist]

mutual
/-- When listing succeeds, `collectAudioFiles` returns the expected files of the
directory. -/
theorem collectAudioFiles_eq (H : Host) (S : Services X)
    (hlist : ∀ d x, (S.sftpList d x).1 = .ok ()) :
    ∀ (dir : RemoteDir) (remoteDir : String) (w : World X),
      (collectAudioFiles H S remoteDir dir w).1 = .ok (expectedAudioFiles H remoteDir dir)
  | .mk entries, remoteDir, w => by
    rw [collectAudioFiles, withRetry_callList_ok S hlist]
    simp only []
    rw [collectEntries_eq H S hlist entries remoteDir [] _]
    simp [expectedAudioFiles, treeEntries]
/-- When listing succeeds, the loop over the entries adds the expected files of the
entries to the files it has. -/
theorem collectEntries_eq (H : Host) (S : Services X)
    (hlist : ∀ d x, (S.sftpList d x).1 = .ok ()) :
    ∀ (entries : RemoteEntries) (remoteDir : String) (acc : List String) (w : World X),
      (collectEntries H S remoteDir entries acc w).1
        = .ok (acc ++ ((treeEntriesOf H remoteDir entries).filter
            (fun e => decide (e.2.2 = "-") && endsInAudioExtension e.2.1)).map
            (fun e => H.posixJoin e.1 e.2.1))
  | .nil, remoteDir, acc, w => by
    simp [collectEntries, treeEntriesOf]
  | .cons name type sub rest, remoteDir, acc, w => by
    rw [collectEntries, treeEntriesOf]
    by_cases hdot : name = "." ∨ name = ".."
    · simp only [hdot, if_true, List.nil_append]
      exact collectEntries_eq H S hlist rest remoteDir acc w
    · simp only [hdot, if_false]
      by_cases hd : type = "d"
      · simp only [hd, if_true]
        have hsub := collectAudioFiles_eq H S hlist sub (H.posixJoin remoteDir name) w
        rcases hc : collectAudioFiles H S (H.posixJoin remoteDir name) sub w with ⟨r, w1⟩
        rw [hc] at hsub
        simp only at hsub
        subst hsub
        simp only []
        rw [collectEntries_eq H S hlist rest remoteDir _ w1]
        have hnot : ("d" : String) ≠ "-" := by decide
        simp [expectedAudioFiles, hnot]
      · simp only [hd, if_false]
        by_cases hf : type = "-" ∧ hasAudioExtension name = true
        · simp only [hf, and_self, if_true]
          rw [collectEntries_eq H S hlist rest remoteDir _ w]
          have h2 := hf.2
          rw [hasAudioExtension_eq] at h2
          simp [hf.1, h2]
        · simp only [hf, if_false]
          rw [collectEntries_eq H S hlist rest remoteDir acc w]
          rw [hasAudioExtension_eq] at hf
          have : (decide (type = "-") && endsInAudioExtension name) = false := by
            by_cases ht : type = "-"
            · have hne : ¬ endsInAudioExtension name = true := fun h => hf ⟨ht, h⟩
              simp only [ht, decide_True, Bool.true_and]
              exact Bool.eq_false_iff.mpr hne
            · simp [ht]
          simp [this]
end

mutual
/-- The entries `.` and `..` are no entries of the tree. -/
theorem treeEntries_no_dot (H : Host) :
    ∀ (dir : RemoteDir) (remoteDir : String), ∀ e ∈ treeEntries H remoteDir dir,
      e.2.1 ≠ "." ∧ e.2.1 ≠ ".."
  | .mk entries, remoteDir, e, he => by
    rw [treeEntries] at he
    exact treeEntriesOf_no_dot H entries remoteDir e he
/-- The entries `.` and `..` are not among the entries that come from a listing. -/
theorem treeEntriesOf_no_dot (H : Host) :
    ∀ (entries : RemoteEntries) (remoteDir : String), ∀ e ∈ treeEntriesOf H remoteDir entries,
      e.2.1 ≠ "." ∧ e.2.1 ≠ ".."
  | .nil, remoteDir, e, he => by
    simp [treeEntriesOf] at he
  | .cons name type sub rest, remoteDir, e, he => by
    rw [treeEntriesOf] at he
    rcases List.mem_append.mp he with h | h
    · by_cases hdot : name = "." ∨ name = ".."
      · simp [hdot] at h
      · simp only [hdot, if_false, List.mem_cons] at h
        rcases h with h | h
        · subst h
          exact ⟨fun h1 => hdot (Or.inl h1), fun h2 => hdot (Or.inr h2)⟩
        · by_cases hd : type = "d"
          · simp only [hd, if_true] at h
            exact treeEntries_no_dot H sub _ e h
          · simp [hd] at h
    · exact treeEntriesOf_no_dot H rest remoteDir e h
end

/-- C12 (remote listing).  On a remote tree whose listings all succeed,
`collectAudioFiles` returns (the embedding is a total function, so it terminates)
exactly `expectedAudioFiles`: the entries of the tree in depth-first order, an entry
before the entries of its own directory and those before its next sibling, filtered to
the regular files (type `-`) whose name ends in `.wav`, `.mp3` or `.m4a` without regard
to case, each as the full path of directory and name.  So every path returned is such
a file of the tree, every such file is returned, and a directory, an entry `.` or `..`
and a file with another extension contribute nothing of their own: the files of a
directory stand where the directory stands among its siblings.  It makes no call but
listings and changes no file. -/
theorem collectAudioFiles_depth_first (H : Host) (S : Services X)
    (hlist : ∀ d x, (S.sftpList d x).1 = .ok ()) (remoteDir : String) (dir : RemoteDir)
    (w : World X) :
    (collectAudioFiles H S remoteDir dir w).1 = .ok (expectedAudioFiles H remoteDir dir)
    ∧ (∀ p, p ∈ expectedAudioFiles H remoteDir dir ↔
        ∃ d name, (d, name, "-") ∈ treeEntries H remoteDir dir
          ∧ endsInAudioExtension name = true ∧ p = H.posixJoin d name)
    ∧ (∀ e ∈ treeEntries H remoteDir dir, e.2.1 ≠ "." ∧ e.2.1 ≠ "..")
    ∧ (∀ d, expectedAudioFiles H d (.mk .nil) = [])
    ∧ (∀ d name type sub rest,
        expectedAudioFiles H d (.mk (.cons name type sub rest))
          = (if name = "." ∨ name = ".." then []
             else if type = "d" then expectedAudioFiles H (H.posixJoin d name) sub
             else if type = "-" ∧ endsInAudioExtension name = true then [H.posixJoin d name]
             else [])
            ++ expectedAudioFiles H d (.mk rest))
    ∧ (∃ evs, (collectAudioFiles H S remoteDir dir w).2.trace = w.trace ++ evs
        ∧ ∀ e ∈ evs, ∃ d, e = Event.sftpList d)
    ∧ (∀ p, (collectAudioFiles H S remoteDir dir w).2.fs p = w.fs p) := by
  have hstep := collectAudioFiles_step (P := fun e => ∃ d, e = Event.sftpList d)
    (F := fun _ => False) H S (fun d => ⟨d, rfl⟩) dir remoteDir w
  refine ⟨collectAudioFiles_eq H S hlist dir remoteDir w, ?_, treeEntries_no_dot H dir remoteDir,
    ?_, ?_, hstep.1, fun p => hstep.2 p (fun h => h)⟩
  · intro p
    simp only [expectedAudioFiles, List.mem_map, List.mem_filter, Bool.and_eq_true,
      decide_eq_true_eq]
    constructor
    · rintro ⟨⟨d, name, type⟩, ⟨hmem, htype, hext⟩, hp⟩
      simp only at htype hext hp
      subst htype
      exact ⟨d, name, hmem, hext, hp.symm⟩
    · rintro ⟨d, name, hmem, hext, hp⟩
      exact ⟨(d, name, "-"), ⟨hmem, rfl, hext⟩, hp.symm⟩
  · intro d
    simp [expectedAudioFiles, treeEntries, treeEntriesOf]
  · intro d name type sub rest
    have hnot : ("d" : String) ≠ "-" := by decide
    simp only [expectedAudioFiles, treeEntries]
    rw [treeEntriesOf]
    by_cases hdot : name = "." ∨ name = ".."
    · simp [hdot]
    · by_cases hd : type = "d"
      · simp [hdot, hd, hnot, treeEntries]
      · by_cases ht : type = "-"
        · by_cases hext : endsInAudioExtension name = true
          · simp [hdot, hd, ht, hext]
          · simp [hdot, hd, ht, hext]
        · simp [hdot, hd, ht]

/-- Witness for C12: the example tree, with listings that succeed. -/
theorem collectAudioFiles_depth_first_witness :
    (collectAudioFiles posixHost (exampleServices [] []) "/remote" exampleTree
        (exampleWorld [])).1
      = .ok (expectedAudioFiles posixHost "/remote" exampleTree)
    ∧ expectedAudioFiles posixHost "/remote" exampleTree
      = ["/remote/a.wav", "/remote/sub.wav/c.Mp3", "/remote/sub.wav/deep/d.m4a",
         "/remote/B.WAV"] :=
  ⟨(collectAudioFiles_depth_first posixHost (exampleServices [] []) (fun _ _ => rfl)
      "/remote" exampleTree (exampleWorld [])).1, by decide⟩

end Listing


/-! ### Object keys -/

/-- Dropping from the right leaves a suffix whose elements all satisfy the predicate. -/
theorem rdropWhile_append_rest {α : Type} (p : α → Bool) (l : List α) :
    ∃ b, l = l.rdropWhile p ++ b ∧ ∀ c ∈ b, p c = true := by
  induction l using List.reverseRecOn with
  | nil => exact ⟨[], by simp [List.rdropWhile], by simp⟩
  | append_singleton xs x ih =>
    by_cases hx : p x = true
    · obtain ⟨b, hb, hall⟩ := ih
      refine ⟨b ++ [x], ?_, ?_⟩
      · rw [List.rdropWhile_concat_pos p xs x hx, ← List.append_assoc, ← hb]
      · intro c hc
        rcases List.mem_append.mp hc with h | h
        · exact hall c h
        · rw [List.mem_singleton.mp h]; exact hx
    · exact ⟨[], by rw [List.rdropWhile_concat_neg p xs x hx]; simp, by simp⟩

/-- `trimSlashes` removes exactly the slashes at both ends: the result neither starts
nor ends with a slash, the text is the result between two runs of slashes, and a text
without a slash at its ends is left as it is. -/
theorem trimSlashes_spec (s : String) :
    (trimSlashes s).data.head? ≠ some '/'
    ∧ (trimSlashes s).data.getLast? ≠ some '/'
    ∧ (∃ a b, s.data = a ++ (trimSlashes s).data ++ b ∧ (∀ c ∈ a, c = '/') ∧ ∀ c ∈ b, c = '/')
    ∧ (s.data.head? ≠ some '/' → s.data.getLast? ≠ some '/' → trimSlashes s = s) := by
  have ht : (trimSlashes s).data
      = (s.data.dropWhile (fun c => decide (c = '/'))).rdropWhile (fun c => decide (c = '/')) := rfl
  obtain ⟨b, hb, hball⟩ := rdropWhile_append_rest (fun c => decide (c = '/'))
    (s.data.dropWhile (fun c => decide (c = '/')))
  rw [← ht] at hb
  refine ⟨?_, ?_, ?_, ?_⟩
  · intro hhead
    have hnot := List.head?_dropWhile_not (fun c => decide (c = '/')) s.data
    rw [hb] at hnot
    cases hd : (trimSlashes s).data with
    | nil => rw [hd] at hhead; simp at hhead
    | cons x xs =>
      rw [hd] at hhead hnot
      simp only [List.cons_append, List.head?_cons, Option.some.injEq] at hhead hnot
      subst hhead
      simp at hnot
  · intro hlast
    have hne : (s.data.dropWhile (fun c => decide (c = '/'))).rdropWhile
        (fun c => decide (c = '/')) ≠ [] := by
      intro hnil
      rw [ht, hnil] at hlast
      simp at hlast
    have hnot := List.rdropWhile_last_not (fun c => decide (c = '/'))
      (s.data.dropWhile (fun c => decide (c = '/'))) hne
    rw [ht, List.getLast?_eq_getLast _ hne] at hlast
    simp only [Option.some.injEq] at hlast
    rw [hlast] at hnot
    simp at hnot
  · refine ⟨s.data.takeWhile (fun c => decide (c = '/')), b, ?_, ?_, ?_⟩
    · rw [List.append_assoc, ← hb, List.takeWhile_append_dropWhile]
    · intro c hc
      simpa using List.mem_takeWhile_imp hc
    · intro c hc
      simpa using hball c hc
  · intro hhead hlast
    have h1 : s.data.dropWhile (fun c => decide (c = '/')) = s.data := by
      cases hs : s.data with
      | nil => rfl
      | cons x xs =>
        rw [hs] at hhead
        have hx : x ≠ '/' := by simpa using hhead
        simp [List.dropWhile_cons, hx]
    have h2 : s.data.rdropWhile (fun c => decide (c = '/')) = s.data := by
      rw [List.rdropWhile_eq_self_iff]
      intro hl
      rw [List.getLast?_eq_getLast _ hl] at hlast
      simpa using hlast
    apply String.ext
    rw [ht, h1, h2]


/-- C11 (amended).  Let `r` be the path of the file relative to the processed root,
`n` be `r` with every separator replaced by a slash and `t` be the prefix without the
slashes at its ends.  When `n` is not empty and does not start with `..`, the key is
`t/n` for a `t` that is not empty and `n` alone for an empty `t`; otherwise it is
`t/basename`, and `basename` alone for an empty `t`.  So for a prefix `p` that is not
empty and has no slash at its ends the key of a file under the root is `p/n`.  In the
first case the key is the same for every path with the same relative path and the same
prefix; in the second it is the same for every path with the same base name. -/
theorem buildObjectKey_spec (H : Host) (localPath pfx : String) :
    (normalizeSeparators H (H.relative (PROCESSED_DIR H) (H.resolve localPath)) ≠ "" →
      startsWithDotDot (normalizeSeparators H
        (H.relative (PROCESSED_DIR H) (H.resolve localPath))) = false →
      (trimSlashes pfx ≠ "" →
        buildObjectKey H localPath pfx = trimSlashes pfx ++ "/"
          ++ normalizeSeparators H (H.relative (PROCESSED_DIR H) (H.resolve localPath)))
      ∧ (trimSlashes pfx = "" →
        buildObjectKey H localPath pfx
          = normalizeSeparators H (H.relative (PROCESSED_DIR H) (H.resolve localPath)))
      ∧ (pfx ≠ "" → pfx.data.head? ≠ some '/' → pfx.data.getLast? ≠ some '/' →
        buildObjectKey H localPath pfx = pfx ++ "/"
          ++ normalizeSeparators H (H.relative (PROCESSED_DIR H) (H.resolve localPath)))
      ∧ (∀ other, H.relative (PROCESSED_DIR H) (H.resolve other)
            = H.relative (PROCESSED_DIR H) (H.resolve localPath) →
          buildObjectKey H other pfx = buildObjectKey H localPath pfx))
    ∧ ((normalizeSeparators H (H.relative (PROCESSED_DIR H) (H.resolve localPath)) = ""
        ∨ startsWithDotDot (normalizeSeparators H
            (H.relative (PROCESSED_DIR H) (H.resolve localPath))) = true) →
      (trimSlashes pfx ≠ "" →
        buildObjectKey H localPath pfx = trimSlashes pfx ++ "/" ++ H.basename localPath)
      ∧ (trimSlashes pfx = "" → buildObjectKey H localPath pfx = H.basename localPath)
      ∧ (∀ other, H.relative (PROCESSED_DIR H) (H.resolve other)
            = H.relative (PROCESSED_DIR H) (H.resolve localPath) →
          H.basename other = H.basename localPath →
          buildObjectKey H other pfx = buildObjectKey H localPath pfx))
    ∧ (normalizeSeparators H (H.relative (PROCESSED_DIR H) (H.resolve localPath))).data
        = (H.relative (PROCESSED_DIR H) (H.resolve localPath)).data.map
            (fun c => if c = H.sep then '/' else c)
    ∧ (H.sep ≠ '/' → H.sep ∉
        (normalizeSeparators H (H.relative (PROCESSED_DIR H) (H.resolve localPath))).data)
    ∧ (H.sep = '/' → normalizeSeparators H (H.relative (PROCESSED_DIR H) (H.resolve localPath))
        = H.relative (PROCESSED_DIR H) (H.resolve localPath))
    ∧ (trimSlashes pfx).data.head? ≠ some '/'
    ∧ (trimSlashes pfx).data.getLast? ≠ some '/'
    ∧ (∃ a b, pfx.data = a ++ (trimSlashes pfx).data ++ b
        ∧ (∀ c ∈ a, c = '/') ∧ ∀ c ∈ b, c = '/') := by
  obtain ⟨t1, t2, t3, t4⟩ := trimSlashes_spec pfx
  generalize hr : H.relative (PROCESSED_DIR H) (H.resolve localPath) = r
  refine ⟨?_, ?_, rfl, ?_, ?_, t1, t2, t3⟩
  · intro hne hdots
    have hcond : ¬ (normalizeSeparators H r = "" ∨ startsWithDotDot (normalizeSeparators H r) = true) := by
      rintro (h | h)
      · exact hne h
      · rw [hdots] at h; exact Bool.false_ne_true h
    have hkey : ∀ l, H.relative (PROCESSED_DIR H) (H.resolve l) = r →
        buildObjectKey H l pfx
          = if trimSlashes pfx ≠ "" then trimSlashes pfx ++ "/" ++ normalizeSeparators H r
            else normalizeSeparators H r := by
      intro l hl
      unfold buildObjectKey
      simp only [hl, hcond, if_false]
    refine ⟨?_, ?_, ?_, ?_⟩
    · intro ht; rw [hkey localPath hr]; simp [ht]
    · intro ht; rw [hkey localPath hr]; simp [ht]
    · intro hp hh hl
      rw [hkey localPath hr, t4 hh hl]
      simp [hp]
    · intro other ho
      rw [hkey other ho, hkey localPath hr]
  · intro hcond
    have hkey : ∀ l, H.relative (PROCESSED_DIR H) (H.resolve l) = r →
        buildObjectKey H l pfx
          = if trimSlashes pfx ≠ "" then trimSlashes pfx ++ "/" ++ H.basename l
            else H.basename l := by
      intro l hl
      unfold buildObjectKey
      simp only [hl, hcond, if_true]
    refine ⟨?_, ?_, ?_⟩
    · intro ht; rw [hkey localPath hr]; simp [ht]
    · intro ht; rw [hkey localPath hr]; simp [ht]
    · intro other ho hb
      rw [hkey other ho, hkey localPath hr, hb]
  · intro hsep hmem
    unfold normalizeSeparators at hmem
    simp only [List.mem_map] at hmem
    obtain ⟨c, _, hc⟩ := hmem
    by_cases h : c = H.sep
    · rw [if_pos h] at hc; exact hsep hc.symm
    · rw [if_neg h] at hc; exact h hc
  · intro hsep
    apply String.ext
    unfold normalizeSeparators
    simp only []
    conv_rhs => rw [← List.map_id r.data]
    apply List.map_congr_left
    intro c _
    by_cases h : c = H.sep
    · rw [if_pos h, h, hsep]; rfl
    · rw [if_neg h]; rfl

/-- Witness for C11 (amended): a file under the processed root and the prefix `audio`,
and a file outside the root. -/
theorem buildObjectKey_spec_witness :
    buildObjectKey posixHost "/app/processed/sub/a.wav" "audio" = "audio/sub/a.wav"
    ∧ buildObjectKey posixHost "/tmp/x/a.wav" "audio" = "audio" ++ "/" ++ "a.wav" :=
  ⟨((buildObjectKey_spec posixHost "/app/processed/sub/a.wav" "audio").1
      (by decide) (by decide)).2.2.1 (by decide) (by decide) (by decide),
   ((buildObjectKey_spec posixHost "/tmp/x/a.wav" "audio").2.1
      (Or.inr (by decide))).1 (by decide)⟩

/-- Counterexample to C11 as stated: with the empty prefix (the default of the
configuration) the key of a file under the processed root is its relative path, without
a slash before it; with the prefix `/audio/` the slashes at the ends of the prefix are
not part of the key; and the key of a file outside the root with the empty prefix is its
base name alone. -/
theorem buildObjectKey_counterexample :
    posixHost.relative (PROCESSED_DIR posixHost) (posixHost.resolve "/app/processed/sub/a.wav")
      = "sub/a.wav"
    ∧ buildObjectKey posixHost "/app/processed/sub/a.wav" "" = "sub/a.wav"
    ∧ buildObjectKey posixHost "/app/processed/sub/a.wav" "" ≠ "" ++ "/" ++ "sub/a.wav"
    ∧ buildObjectKey posixHost "/app/processed/sub/a.wav" "/audio/" = "audio/sub/a.wav"
    ∧ buildObjectKey posixHost "/app/processed/sub/a.wav" "/audio/"
        ≠ "/audio/" ++ "/" ++ "sub/a.wav"
    ∧ buildObjectKey posixHost "/tmp/x/a.wav" "" = "a.wav"
    ∧ buildObjectKey posixHost "/tmp/x/a.wav" "" ≠ "" ++ "/" ++ "a.wav" := by
  decide


/-! ### The boundary behaviour of the fallback -/

/-- The characters `.`, `!` and `?` are no whitespace. -/
theorem isSentenceEnd_not_whitespace (c : Char) (h : isSentenceEnd c = true) :
    isJsWhitespace c = false := by
  simp only [isSentenceEnd, Bool.or_eq_true, decide_eq_true_eq] at h
  rcases h with (h | h) | h <;> subst h <;> decide

/-- Collapsing whitespace leaves a text without whitespace at the end as it is. -/
theorem collapseWhitespaceFrom_append (tail : List Char)
    (htail : ∀ c ∈ tail, isJsWhitespace c = false) :
    ∀ (l : List Char) (b : Bool),
      collapseWhitespaceFrom b (l ++ tail) = collapseWhitespaceFrom b l ++ tail := by
  have hbase : ∀ (t : List Char), (∀ c ∈ t, isJsWhitespace c = false) →
      ∀ b, collapseWhitespaceFrom b t = t := by
    intro t
    induction t with
    | nil => intro _ b; rfl
    | cons c cs ih =>
      intro ht b
      have hc := ht c (List.mem_cons_self _ _)
      rw [collapseWhitespaceFrom]
      simp only [hc, Bool.false_eq_true, if_false]
      rw [ih (fun d hd => ht d (List.mem_cons_of_mem _ hd))]
  intro l
  induction l with
  | nil => intro b; simpa [collapseWhitespaceFrom] using hbase tail htail b
  | cons c cs ih =>
    intro b
    rw [List.cons_append, collapseWhitespaceFrom, collapseWhitespaceFrom]
    by_cases hc : isJsWhitespace c = true
    · simp only [hc, if_true]
      cases b
      · simp only [Bool.false_eq_true, if_false, ih, List.cons_append]
      · simp only [if_true, ih]
    · simp only [hc, if_false, Bool.false_eq_true, ih, List.cons_append]

/-- The collapsed text has a space or a character of the text that is no whitespace. -/
theorem mem_collapseWhitespaceFrom (l : List Char) :
    ∀ (b : Bool) (c : Char), c ∈ collapseWhitespaceFrom b l →
      c = ' ' ∨ (c ∈ l ∧ isJsWhitespace c = false) := by
  induction l with
  | nil => intro b c hc; simp [collapseWhitespaceFrom] at hc
  | cons x xs ih =>
    intro b c hc
    rw [collapseWhitespaceFrom] at hc
    by_cases hx : isJsWhitespace x = true
    · simp only [hx, if_true] at hc
      cases b
      · simp only [Bool.false_eq_true, if_false, List.mem_cons] at hc
        rcases hc with h | h
        · exact Or.inl h
        · rcases ih true c h with h' | h'
          · exact Or.inl h'
          · exact Or.inr ⟨List.mem_cons_of_mem _ h'.1, h'.2⟩
      · simp only [if_true] at hc
        rcases ih true c hc with h' | h'
        · exact Or.inl h'
        · exact Or.inr ⟨List.mem_cons_of_mem _ h'.1, h'.2⟩
    · simp only [hx, if_false, Bool.false_eq_true, List.mem_cons] at hc
      rcases hc with h | h
      · subst h
        exact Or.inr ⟨List.mem_cons_self _ _, by simpa using hx⟩
      · rcases ih false c h with h' | h'
        · exact Or.inl h'
        · exact Or.inr ⟨List.mem_cons_of_mem _ h'.1, h'.2⟩

/-- A single sentence is one segment: for a text of characters other than `.`, `!`, `?`
(at least one) followed by characters `.`, `!`, `?` only, the segments are the one
element that is the whitespace-collapsed text. -/
theorem fallbackParts_single_sentence (body tail : List Char) (hne : body ≠ [])
    (hbody : ∀ c ∈ body, isSentenceEnd c = false) (htail : ∀ c ∈ tail, isSentenceEnd c = true) :
    fallbackParts (body ++ tail) = [collapseWhitespace body ++ tail] := by
  have hcollapse : collapseWhitespace (body ++ tail) = collapseWhitespace body ++ tail :=
    collapseWhitespaceFrom_append tail
      (fun c hc => isSentenceEnd_not_whitespace c (htail c hc)) body false
  have hcne : collapseWhitespace body ≠ [] := by
    cases body with
    | nil => exact absurd rfl hne
    | cons x xs =>
      unfold collapseWhitespace
      rw [collapseWhitespaceFrom]
      by_cases hx : isJsWhitespace x = true <;> simp [hx]
  have hchars : ∀ c ∈ collapseWhitespace body, isSentenceChar c = true := by
    intro c hc
    rcases mem_collapseWhitespaceFrom body false c hc with h | ⟨hmem, hws⟩
    · subst h; decide
    · have hend := hbody c hmem
      have hnl : c ≠ '\n' := by
        intro heq; subst heq; revert hws; decide
      simp only [isSentenceEnd, Bool.or_eq_false_iff, decide_eq_false_iff_not] at hend
      simp [isSentenceChar, hend.1.1, hend.1.2, hend.2, hnl]
  have hmatch := sentenceMatches_greedy.2.2 (collapseWhitespace body) tail [] hcne hchars htail
    (by intro c hc; simp at hc)
  simp only [List.append_nil] at hmatch
  unfold fallbackParts
  rw [hcollapse, hmatch]
  rfl

/-- C13 (amended).  For the empty text `fallbackTwoSpeakers` returns the one line
`Speaker 1: `, not the empty string, and it returns the empty string for no text.
Whenever one segment is labelled, the output is the single line `Speaker 1: ` followed
by the trimmed segment; that is so for every single sentence: characters other than `.`,
`!`, `?` (at least one) followed by any number of `.`, `!`, `?` and nothing behind
them. -/
theorem fallbackTwoSpeakers_boundary :
    fallbackTwoSpeakers "" = "Speaker 1: "
    ∧ (∀ text : String, fallbackTwoSpeakers text ≠ "")
    ∧ (∀ (text : String) (seg : List Char), fallbackParts text.data = [seg] →
        fallbackTwoSpeakers text = String.mk ("Speaker 1: ".data ++ jsTrim seg)
        ∧ (fallbackTwoSpeakers text).data.splitOn '\n' = ["Speaker 1: ".data ++ jsTrim seg])
    ∧ (∀ (text : String) (body tail : List Char), text.data = body ++ tail → body ≠ [] →
        (∀ c ∈ body, isSentenceEnd c = false) → (∀ c ∈ tail, isSentenceEnd c = true) →
        fallbackTwoSpeakers text
          = String.mk ("Speaker 1: ".data ++ jsTrim (collapseWhitespace body ++ tail))
        ∧ (fallbackTwoSpeakers text).data.splitOn '\n'
          = ["Speaker 1: ".data ++ jsTrim (collapseWhitespace body ++ tail)]) := by
  have hone : ∀ (text : String) (seg : List Char), fallbackParts text.data = [seg] →
      fallbackTwoSpeakers text = String.mk ("Speaker 1: ".data ++ jsTrim seg)
      ∧ (fallbackTwoSpeakers text).data.splitOn '\n' = ["Speaker 1: ".data ++ jsTrim seg] := by
    intro text seg hseg
    have hlines : speakerLines 0 (fallbackParts text.data) = ["Speaker 1: ".data ++ jsTrim seg] := by
      rw [hseg]; rfl
    obtain ⟨hno, hnn⟩ := speakerLines_no_newline text.data
    have hsplit : (fallbackTwoSpeakers text).data.splitOn '\n'
        = speakerLines 0 (fallbackParts text.data) := by
      unfold fallbackTwoSpeakers
      exact List.splitOn_intercalate _ _ hno hnn
    refine ⟨?_, by rw [hsplit, hlines]⟩
    unfold fallbackTwoSpeakers
    rw [hlines]
    simp [List.intercalate]
  refine ⟨by decide, ?_, hone, ?_⟩
  · intro text hempty
    obtain ⟨hno, hnn⟩ := speakerLines_no_newline text.data
    have hdata : (fallbackTwoSpeakers text).data = [] := by rw [hempty]
    have hsplit : (fallbackTwoSpeakers text).data.splitOn '\n'
        = speakerLines 0 (fallbackParts text.data) := by
      unfold fallbackTwoSpeakers
      exact List.splitOn_intercalate _ _ hno hnn
    rw [hdata] at hsplit
    have hl : speakerLines 0 (fallbackParts text.data) = [[]] := by
      rw [← hsplit]; rfl
    have hlen := speakerLines_get? (fallbackParts text.data) 0 0
    rw [hl] at hlen
    cases hp : (fallbackParts text.data).get? 0 with
    | none => rw [hp] at hlen; simp at hlen
    | some seg =>
      rw [hp] at hlen
      simp [speakerLabel] at hlen
  · intro text body tail htext hne hbody htail
    exact hone text _ (by rw [htext]; exact fallbackParts_single_sentence body tail hne hbody htail)

/-- Witness for C13 (amended): the single sentence `Hello  world!` (two spaces). -/
theorem fallbackTwoSpeakers_boundary_witness :
    fallbackTwoSpeakers "Hello  world!" = "Speaker 1: Hello world!" :=
  (fallbackTwoSpeakers_boundary.2.2.2 "Hello  world!" "Hello  world".data "!".data
    (by decide) (by decide) (by decide) (by decide)).1

/-- Counterexample to C13 as stated: for the empty text the output is `Speaker 1: `,
which is not the empty string. -/
theorem fallbackTwoSpeakers_empty_counterexample :
    fallbackTwoSpeakers "" = "Speaker 1: " ∧ fallbackTwoSpeakers "" ≠ "" := by
  decide

/-- Whitespace behind the sentence is a segment of its own: a sentence followed by a
newline gets a second, empty line. -/
theorem fallbackTwoSpeakers_trailing_whitespace :
    fallbackTwoSpeakers "Hello.\n" = "Speaker 1: Hello.\nSpeaker 2: " := by
  decide

end Pipeline
